import Mathlib

/-!
# smartimports: the import-block normalizer, the file selector and the orchestrator

A shallow embedding of `cmd/smartimports/main.go`.

Go strings and byte slices are lists of bytes; a byte is a natural number
(the values below 256 are the bytes a Go program can hold, and every theorem
below that quantifies over all lists holds for them in particular).
-/

namespace SmartImports

/-- A Go `string` or `[]byte`: a sequence of bytes. -/
abbrev Bytes := List Nat

/-- The bytes of an ASCII string literal of the source. -/
def str (s : String) : Bytes := s.data.map Char.toNat

/-! ## Standard-library functions used by `removeImportEmptyLines` -/

/-- Go `unicode.IsSpace`: the Latin-1 spaces and the other code points of the
Unicode `White_Space` property. -/
def isSpace (r : Nat) : Bool :=
  if r ≤ 0xFF then
    r == 0x09 || r == 0x0A || r == 0x0B || r == 0x0C || r == 0x0D || r == 0x20
      || r == 0x85 || r == 0xA0
  else
    r == 0x1680 || (0x2000 ≤ r && r ≤ 0x200A) || r == 0x2028 || r == 0x2029
      || r == 0x202F || r == 0x205F || r == 0x3000

/-- A continuation byte of UTF-8 (`0x80..0xBF`). -/
def isCont (b : Nat) : Bool := 0x80 ≤ b && b ≤ 0xBF

/-- The two bytes `b0 b1` are a well-formed two-byte UTF-8 sequence. -/
def valid2 (b0 b1 : Nat) : Bool := 0xC2 ≤ b0 && b0 ≤ 0xDF && isCont b1

/-- The code point of a two-byte UTF-8 sequence. -/
def rune2 (b0 b1 : Nat) : Nat := (b0 % 32) * 64 + b1 % 64

/-- The three bytes are a well-formed three-byte UTF-8 sequence (neither
overlong nor a surrogate), as `utf8.DecodeRuneInString` accepts them. -/
def valid3 (b0 b1 b2 : Nat) : Bool :=
  ((b0 == 0xE0 && 0xA0 ≤ b1 && b1 ≤ 0xBF)
    || (0xE1 ≤ b0 && b0 ≤ 0xEC && isCont b1)
    || (b0 == 0xED && 0x80 ≤ b1 && b1 ≤ 0x9F)
    || (0xEE ≤ b0 && b0 ≤ 0xEF && isCont b1))
  && isCont b2

/-- The code point of a three-byte UTF-8 sequence. -/
def rune3 (b0 b1 b2 : Nat) : Nat := (b0 % 16) * 4096 + (b1 % 64) * 64 + b2 % 64

/-- The test `strings.TrimSpace(s) == ""`: every rune that decoding `s` as
UTF-8 yields is a space. A byte that starts no well-formed sequence decodes to
`utf8.RuneError`, which is not a space, and no rune of four bytes is a space,
so both make the result `false`. It agrees with `trimSpace` below
(`trimSpace_eq_nil_iff`). -/
def trimSpaceIsEmpty : Bytes → Bool
  | [] => true
  | b0 :: rest =>
    if b0 < 0x80 then isSpace b0 && trimSpaceIsEmpty rest
    else
      match rest with
      | [] => false
      | b1 :: rest1 =>
        if valid2 b0 b1 then isSpace (rune2 b0 b1) && trimSpaceIsEmpty rest1
        else
          match rest1 with
          | [] => false
          | b2 :: rest2 =>
            if valid3 b0 b1 b2 then isSpace (rune3 b0 b1 b2) && trimSpaceIsEmpty rest2
            else false

/-- Go `strings.HasPrefix(s, p)`. -/
def hasPrefix (s p : Bytes) : Bool := p.isPrefixOf s

/-- Go `strings.HasSuffix(s, p)`. -/
def hasSuffix (s p : Bytes) : Bool := p.isSuffixOf s

/-- Go `(*bytes.Buffer).ReadString('\n')` on a buffer holding `buf`: the bytes
read (through the first newline when there is one), the bytes left in the
buffer, and whether it reports `io.EOF` (no newline was found). -/
def readString : Bytes → Bytes × Bytes × Bool
  | [] => ([], [], true)
  | b :: t =>
    if b = 10 then ([b], t, false)
    else
      let res := readString t
      (b :: res.1, res.2.1, res.2.2)

/-! ## `removeImportEmptyLines` -/

/-- The local variables of `removeImportEmptyLines`: the unread part of the
reader `r`, the bytes written to `w`, and the two flags. -/
structure LoopState where
  r : Bytes
  w : Bytes
  importsStarted : Bool
  importsEnded : Bool
deriving DecidableEq, Repr

/-- One iteration of the `for` loop of `removeImportEmptyLines`; `none` is the
`break` taken when `ReadString` reports an error. -/
def loopStep (st : LoopState) : Option LoopState :=
  let res := readString st.r
  let line := res.1
  if res.2.2 then none
  else if st.importsStarted then
    if !st.importsEnded then
      if trimSpaceIsEmpty line then
        some { st with r := res.2.1 }
      else if hasPrefix line (str ")") then
        some { st with r := res.2.1, w := st.w ++ line, importsEnded := true }
      else
        some { st with r := res.2.1, w := st.w ++ line }
    else
      some { st with r := res.2.1, w := st.w ++ line }
  else if hasPrefix line (str "import (") then
    some { st with r := res.2.1, w := st.w ++ line, importsStarted := true }
  else
    some { st with r := res.2.1, w := st.w ++ line }

/-- The `for` loop of `removeImportEmptyLines`, run for at most `fuel`
iterations; the value is the content of `w` when the loop is left. -/
def loop : Nat → LoopState → Bytes
  | 0, st => st.w
  | fuel + 1, st =>
    match loopStep st with
    | none => st.w
    | some st1 => loop fuel st1

/-- The function `removeImportEmptyLines` of `main.go`. Every iteration but the
last consumes at least one byte, so `len(src) + 1` iterations are enough
(`loop_fuel_irrelevant`). -/
def removeImportEmptyLines (src : Bytes) : Bytes :=
  loop (src.length + 1) { r := src, w := [], importsStarted := false, importsEnded := false }

/-! ## Lines -/

/-- A newline-terminated line: bytes other than newline followed by one newline. -/
def isLine : Bytes → Bool
  | [] => false
  | b :: t => if b = 10 then t.isEmpty else isLine t

/-- A line is blank when `strings.TrimSpace(line) == ""`. -/
def isBlank (line : Bytes) : Bool := trimSpaceIsEmpty line

/-- The line starts with `import (`. -/
def isOpener (line : Bytes) : Bool := hasPrefix line (str "import (")

/-- The line starts with `)`. -/
def isCloser (line : Bytes) : Bool := hasPrefix line (str ")")

/-- The concatenation of a sequence of lines. -/
def joinLines (ls : List Bytes) : Bytes := ls.flatten

/-- The newline-terminated lines of a text, in order. -/
def linesOf : Bytes → List Bytes
  | [] => []
  | b :: t =>
    if b = 10 then [b] :: linesOf t
    else
      match linesOf t with
      | [] => []
      | l :: ls => (b :: l) :: ls

/-- What follows the last newline of a text: its unterminated final line. -/
def tailOf : Bytes → Bytes
  | [] => []
  | b :: t =>
    if b = 10 then tailOf t
    else
      match linesOf t with
      | [] => b :: tailOf t
      | _ :: _ => tailOf t

/-- The lines that the loop writes, given the flags it starts with: the
line-by-line reading of the loop body. -/
def keptLines (started ended : Bool) : List Bytes → List Bytes
  | [] => []
  | l :: ls =>
    if started then
      if !ended then
        if isBlank l then keptLines started ended ls
        else if isCloser l then l :: keptLines started true ls
        else l :: keptLines started ended ls
      else l :: keptLines started ended ls
    else if isOpener l then l :: keptLines true ended ls
    else l :: keptLines started ended ls

/-- The text has no import block: none of its lines, the unterminated final
one included, starts with `import (`. -/
def noImportBlock (x : Bytes) : Bool :=
  (linesOf x ++ [tailOf x]).all (fun l => !isOpener l)

/-- The text is empty or ends with a newline: its last line is terminated. -/
def endsWithNewline (x : Bytes) : Bool := x.isEmpty || x.getLast? == some 10

/-- The lines `kept` come from the lines `input` by deleting whole lines, each of
them blank: the lines that stay are the same bytes in the same order. -/
inductive BlankLinesDeleted : List Bytes → List Bytes → Prop where
  | done : BlankLinesDeleted [] []
  | keep (l : Bytes) {kept input : List Bytes} :
      BlankLinesDeleted kept input → BlankLinesDeleted (l :: kept) (l :: input)
  | delete (l : Bytes) {kept input : List Bytes} :
      isBlank l = true → BlankLinesDeleted kept input → BlankLinesDeleted kept (l :: input)

/-! ## Errors, file information and the file system -/

/-- A non-nil Go `error` value. `errors.Wrap(cause, message)` builds a new value
around its cause; the two sentinels of `path/filepath` are values of their own. -/
inductive GoError where
  | skipDir
  | skipAll
  | notExist
  | isDirectory
  | permission
  | formatter (code : Nat)
  | wrap (cause : GoError) (message : String)
deriving DecidableEq, Repr

/-- What the callback reads of an `fs.FileInfo`: `Name()`, `IsDir()`, `Mode()`. -/
structure FileInfo where
  name : Bytes
  isDir : Bool
  mode : Nat
deriving DecidableEq, Repr

/-- What a path of the file system holds. -/
structure Node where
  isDir : Bool
  mode : Nat
  content : Bytes
deriving DecidableEq, Repr

/-- The file system: what each path holds, if anything. -/
abbrev FS := Bytes → Option Node

/-- The file system `fs` with `node` at `path`. -/
def FS.update (fs : FS) (path : Bytes) (node : Node) : FS :=
  fun q => if q = path then some node else fs q

/-- Go `os.ReadFile`: the content of a regular file its owner may read. -/
def readFile (fs : FS) (filename : Bytes) : Except GoError Bytes :=
  match fs filename with
  | none => .error .notExist
  | some node =>
    if node.isDir then .error .isDirectory
    else if node.mode / 256 % 2 = 0 then .error .permission
    else .ok node.content

/-- Go `os.WriteFile(filename, data, perm)`: it replaces the content of an
existing regular file its owner may write, whose mode it leaves alone, and uses
`perm` only for a file it creates. -/
def writeFile (fs : FS) (filename data : Bytes) (perm : Nat) : FS × Option GoError :=
  match fs filename with
  | none => (fs.update filename { isDir := false, mode := perm, content := data }, none)
  | some node =>
    if node.isDir then (fs, some .isDirectory)
    else if node.mode / 128 % 2 = 0 then (fs, some .permission)
    else (fs.update filename { node with content := data }, none)

/-- The external formatter `imports.Process("", ·, opts)`: any function from
bytes to bytes or an error. -/
abbrev Formatter := Bytes → Except GoError Bytes

/-! ## `processData`, `processFile`, `processDir` -/

/-- The function `processData` of `main.go`, over the formatter `format`. -/
def processData (format : Formatter) (src : Bytes) : Except GoError Bytes :=
  match format src with
  | .error err => .error (.wrap err "imports.Process 1")
  | .ok res =>
    let res := removeImportEmptyLines res
    match format res with
    | .error err => .error (.wrap err "imports.Process 2")
    | .ok res => .ok res

/-- The function `processFile` of `main.go`: the file system it leaves and the
error it returns (`none` is `nil`). -/
def processFile (format : Formatter) (fs : FS) (filename : Bytes) (info : FileInfo) :
    FS × Option GoError :=
  match readFile fs filename with
  | .error err => (fs, some (.wrap err "os.ReadFile"))
  | .ok rawData =>
    match processData format rawData with
    | .error err => (fs, some (.wrap err "processData"))
    | .ok res =>
      match writeFile fs filename res info.mode with
      | (fs1, some err) => (fs1, some (.wrap err "os.WriteFile"))
      | (fs1, none) => (fs1, none)

/-- How a call of the visit callback ends. -/
inductive Action where
  | returnNil
  | callProcessFile (path : Bytes) (info : FileInfo)
  | nilDereference
deriving DecidableEq, Repr

/-- The control flow of the callback that `processDir` hands to `filepath.Walk`,
for the arguments `path`, `info` (`none` is a nil `fs.FileInfo`) and `err`; the
compiled filter is its `MatchString`, `none` when `filterRegexp` is nil. The
lines printed under `verbose` are left out. -/
def visitAction (excludedPaths : List Bytes) (filterRegexp : Option (Bytes → Bool))
    (path : Bytes) (info : Option FileInfo) (_err : Option GoError) : Action :=
  if excludedPaths.any (fun excludedPath => hasPrefix path excludedPath) then .returnNil
  else
    match info with
    | none => .nilDereference
    | some info =>
      if info.isDir then .returnNil
      else if (match filterRegexp with
          | none => false
          | some matchString => !matchString info.name) then .returnNil
      else if hasPrefix info.name (str ".") || !hasSuffix info.name (str ".go") then .returnNil
      else .callProcessFile path info

/-- What a call of the callback leaves: a result and a file system, or a panic. -/
inductive Outcome where
  | returned (fs : FS) (err : Option GoError)
  | panicked (fs : FS)

/-- The callback that `processDir` hands to `filepath.Walk`. -/
def visit (format : Formatter) (excludedPaths : List Bytes)
    (filterRegexp : Option (Bytes → Bool))
    (path : Bytes) (info : Option FileInfo) (err : Option GoError) (fs : FS) : Outcome :=
  match visitAction excludedPaths filterRegexp path info err with
  | .returnNil => .returned fs none
  | .callProcessFile filename info =>
    let res := processFile format fs filename info
    .returned res.1 res.2
  | .nilDereference => .panicked fs

/-- An entry that `filepath.Walk` visits: the arguments it calls the callback with. -/
structure Entry where
  path : Bytes
  info : Option FileInfo
  err : Option GoError
deriving DecidableEq, Repr

/-- The walk of `filepath.Walk` over the entries it visits, in order: it calls
`fn` on each and stops at the first call that does not return nil. The sentinels
`filepath.SkipDir` and `filepath.SkipAll`, which the library treats apart, are
never returned by the callback of `processDir` (`visit_error_is_wrapped`). -/
def walk (fn : Entry → FS → Outcome) : List Entry → FS → Outcome
  | [], fs => .returned fs none
  | e :: rest, fs =>
    match fn e fs with
    | .returned fs1 none => walk fn rest fs1
    | .returned fs1 (some err) => .returned fs1 (some err)
    | .panicked fs1 => .panicked fs1

/-- The function `processDir` of `main.go`, over the entries the walk of `path`
visits. -/
def processDir (format : Formatter) (excludedPaths : List Bytes)
    (filterRegexp : Option (Bytes → Bool)) (entries : List Entry) (fs : FS) : Outcome :=
  walk (fun e => visit format excludedPaths filterRegexp e.path e.info e.err) entries fs

/-! ## The exclusion list built in `main` -/

/-- Go `strings.TrimLeftFunc(s, unicode.IsSpace)`: `s` without the spaces that
decoding it as UTF-8 from the front yields before the first rune that is not a
space (an ill-formed byte decodes to `utf8.RuneError`, which is not a space). -/
def trimLeftSpace : Bytes → Bytes
  | [] => []
  | b0 :: rest =>
    if b0 < 0x80 then
      if isSpace b0 then trimLeftSpace rest else b0 :: rest
    else
      match rest with
      | [] => b0 :: rest
      | b1 :: rest1 =>
        if valid2 b0 b1 then
          if isSpace (rune2 b0 b1) then trimLeftSpace rest1 else b0 :: rest
        else
          match rest1 with
          | [] => b0 :: rest
          | b2 :: rest2 =>
            if valid3 b0 b1 b2 && isSpace (rune3 b0 b1 b2) then trimLeftSpace rest2
            else b0 :: rest

/-- Go `strings.TrimRightFunc(s, unicode.IsSpace)` on the reversed string: the
argument lists the bytes of `s` from the last to the first, and so does the
result. `utf8.DecodeLastRuneInString` yields a space exactly when the string ends
with an ASCII space or with the well-formed two or three bytes of another one. -/
def trimRightSpaceRev : Bytes → Bytes
  | [] => []
  | c :: rest =>
    if c < 0x80 then
      if isSpace c then trimRightSpaceRev rest else c :: rest
    else
      match rest with
      | [] => c :: rest
      | b :: rest1 =>
        if valid2 b c then
          if isSpace (rune2 b c) then trimRightSpaceRev rest1 else c :: rest
        else
          match rest1 with
          | [] => c :: rest
          | a :: rest2 =>
            if valid3 a b c && isSpace (rune3 a b c) then trimRightSpaceRev rest2
            else c :: rest

/-- Go `strings.TrimSpace(s)`: `s` without its leading and trailing spaces. -/
def trimSpace (s : Bytes) : Bytes :=
  (trimRightSpaceRev (trimLeftSpace s).reverse).reverse

/-- Go `strings.Split(s, sep)` for a separator `sep` of one byte: the pieces of
`s` between the occurrences of `sep`; one piece, `s` itself, when there is none. -/
def split (s : Bytes) (sep : Nat) : List Bytes :=
  match s with
  | [] => [[]]
  | b :: t =>
    if b = sep then [] :: split t sep
    else
      match split t sep with
      | [] => [[b]]
      | piece :: pieces => (b :: piece) :: pieces

/-- One iteration of the `for` loop of `main` over `excludedPathsList`: the slice
`filteredExcludedPaths` after it. -/
def excludeStep (filteredExcludedPaths : List Bytes) (path : Bytes) : List Bytes :=
  let path := trimSpace path
  if path = [] then filteredExcludedPaths
  else filteredExcludedPaths ++ [path]

/-- The slice `filteredExcludedPaths` that `main` builds from the value of the
flag `-exclude` and hands to `processDir`. -/
def filteredExcludedPaths (excludedPaths : Bytes) : List Bytes :=
  let excludedPathsList := split excludedPaths 44
  excludedPathsList.foldl excludeStep []

/-! ## A small tree to run the walk on -/

/-- A formatter for the examples: it accepts a text that starts with `package`
and returns it as it is, and rejects every other text. -/
def exampleFormat : Formatter :=
  fun src => if hasPrefix src (str "package") then .ok src else .error (.formatter 1)

/-- A directory with three files: `a.go` with a blank line in its import block,
`b.go` that the formatter rejects, and `c.go` with a blank line in its import block. -/
def exampleFS : FS := fun path =>
  if path = str "." then some { isDir := true, mode := 493, content := [] }
  else if path = str "a.go" then
    some { isDir := false, mode := 420, content := str "package a\nimport (\n\n\"fmt\"\n)\n" }
  else if path = str "b.go" then
    some { isDir := false, mode := 420, content := str "pakage b\n" }
  else if path = str "c.go" then
    some { isDir := false, mode := 420, content := str "package c\nimport (\n\n\"os\"\n)\n" }
  else none

/-- The entry of the walk for a regular file `name` of the example directory. -/
def exampleEntry (name : String) : Entry :=
  { path := str name, info := some { name := str name, isDir := false, mode := 420 },
    err := none }

/-- The entry of the walk for the example directory itself. -/
def exampleRoot : Entry :=
  { path := str ".", info := some { name := str ".", isDir := true, mode := 2147484141 },
    err := none }

/-- The example directory once `a.go` has been rewritten. -/
def exampleFSAfterA : FS :=
  exampleFS.update (str "a.go")
    { isDir := false, mode := 420, content := str "package a\nimport (\n\"fmt\"\n)\n" }

/-- A file system with one executable file, `run.go` of mode `0755`, with a blank
line in its import block, next to a read-only `doc.go`. -/
def exampleExecFS : FS := fun path =>
  if path = str "run.go" then
    some { isDir := false, mode := 493, content := str "package main\nimport (\n\n\"os\"\n)\n" }
  else if path = str "doc.go" then
    some { isDir := false, mode := 292, content := str "package main\n" }
  else none

/-! ## Reading lines -/

theorem isLine_ne_nil {l : Bytes} (h : isLine l = true) : l ≠ [] := by
  intro hl
  subst hl
  simp [isLine] at h

theorem readString_line (l rest : Bytes) (h : isLine l = true) :
    readString (l ++ rest) = (l, rest, false) := by
  induction l with
  | nil => simp [isLine] at h
  | cons b t ih =>
    by_cases hb : b = 10
    · subst hb
      have ht : t = [] := by simpa [isLine] using h
      subst ht
      simp [readString]
    · have ht : isLine t = true := by simpa [isLine, hb] using h
      simp [readString, hb, ih ht]

theorem readString_eof (t : Bytes) (h : 10 ∉ t) : readString t = (t, [], true) := by
  induction t with
  | nil => rfl
  | cons b t ih =>
    have hb : b ≠ 10 := fun hb => h (by simp [hb])
    have ht : 10 ∉ t := fun ht => h (by simp [ht])
    simp [readString, hb, ih ht]

theorem loopStep_line (l rest w : Bytes) (s e : Bool) (hl : isLine l = true) :
    loopStep { r := l ++ rest, w := w, importsStarted := s, importsEnded := e } =
      if s then
        if !e then
          if isBlank l then
            some { r := rest, w := w, importsStarted := s, importsEnded := e }
          else if isCloser l then
            some { r := rest, w := w ++ l, importsStarted := s, importsEnded := true }
          else some { r := rest, w := w ++ l, importsStarted := s, importsEnded := e }
        else some { r := rest, w := w ++ l, importsStarted := s, importsEnded := e }
      else if isOpener l then
        some { r := rest, w := w ++ l, importsStarted := true, importsEnded := e }
      else some { r := rest, w := w ++ l, importsStarted := s, importsEnded := e } := by
  simp only [loopStep, readString_line l rest hl, isBlank, isCloser, isOpener]
  rfl

theorem loopStep_eof (t w : Bytes) (s e : Bool) (ht : 10 ∉ t) :
    loopStep { r := t, w := w, importsStarted := s, importsEnded := e } = none := by
  simp [loopStep, readString_eof t ht]

theorem loop_lines (ls : List Bytes) (t : Bytes) (hls : ∀ l ∈ ls, isLine l = true)
    (ht : 10 ∉ t) (n : Nat) (w : Bytes) (s e : Bool)
    (hn : (joinLines ls ++ t).length < n) :
    loop n { r := joinLines ls ++ t, w := w, importsStarted := s, importsEnded := e }
      = w ++ joinLines (keptLines s e ls) := by
  induction ls generalizing n w s e with
  | nil =>
    cases n with
    | zero => simp at hn
    | succ n =>
      have hj : joinLines [] ++ t = t := by simp [joinLines]
      rw [hj, loop, loopStep_eof t w s e ht]
      simp [keptLines, joinLines]
  | cons l ls ih =>
    have hl : isLine l = true := hls l (by simp)
    have hls1 : ∀ l1 ∈ ls, isLine l1 = true := fun l1 h1 => hls l1 (by simp [h1])
    have hlen : 0 < l.length := List.length_pos.mpr (isLine_ne_nil hl)
    cases n with
    | zero => simp at hn
    | succ n =>
      have hr : joinLines (l :: ls) ++ t = l ++ (joinLines ls ++ t) := by
        simp [joinLines]
      have hn1 : (joinLines ls ++ t).length < n := by
        rw [hr] at hn
        simp only [List.length_append, List.length_cons] at hn ⊢
        omega
      have hj : ∀ ks : List Bytes, joinLines (l :: ks) = l ++ joinLines ks := by
        intro ks
        simp [joinLines]
      rw [hr, loop, loopStep_line l _ w s e hl]
      simp only [keptLines]
      split_ifs <;> simp only [ih hls1 _ _ _ _ hn1, hj, List.append_assoc]

/-! ## Every text is its lines followed by its unterminated tail -/

theorem joinLines_nil : joinLines [] = [] := rfl

theorem joinLines_cons (l : Bytes) (ls : List Bytes) :
    joinLines (l :: ls) = l ++ joinLines ls := by
  simp [joinLines]

theorem join_linesOf (x : Bytes) : joinLines (linesOf x) ++ tailOf x = x := by
  induction x with
  | nil => rfl
  | cons b t ih =>
    by_cases hb : b = 10
    · simp [linesOf, tailOf, hb, joinLines_cons, ih]
    · cases hl : linesOf t with
      | nil =>
        rw [hl] at ih
        simp only [joinLines_nil, List.nil_append] at ih
        simp [linesOf, tailOf, hb, hl, joinLines_nil, ih]
      | cons l ls =>
        rw [hl] at ih
        simp only [joinLines_cons, List.append_assoc] at ih
        simp [linesOf, tailOf, hb, hl, joinLines_cons, ih]

theorem linesOf_isLine (x : Bytes) : ∀ l ∈ linesOf x, isLine l = true := by
  induction x with
  | nil => simp [linesOf]
  | cons b t ih =>
    by_cases hb : b = 10
    · intro l hl
      simp only [linesOf, hb, if_true, List.mem_cons] at hl
      rcases hl with rfl | hl
      · simp [isLine]
      · exact ih l hl
    · cases hl : linesOf t with
      | nil => simp [linesOf, hb, hl]
      | cons l ls =>
        rw [hl] at ih
        intro k hk
        simp only [linesOf, hb, if_false, hl, List.mem_cons] at hk
        rcases hk with rfl | hk
        · have := ih l (by simp)
          simpa [isLine, hb] using this
        · exact ih k (by simp [hk])

theorem tailOf_no_newline (x : Bytes) : 10 ∉ tailOf x := by
  induction x with
  | nil => simp [tailOf]
  | cons b t ih =>
    by_cases hb : b = 10
    · simpa [tailOf, hb] using ih
    · cases hl : linesOf t with
      | nil =>
        simp only [tailOf, hb, if_false, hl, List.mem_cons, not_or]
        exact ⟨fun h => hb h.symm, ih⟩
      | cons l ls => simpa [tailOf, hb, hl] using ih

/-- The loop, given enough fuel, writes the kept lines of the text it reads. -/
theorem loop_eq_keptLines (x w : Bytes) (s e : Bool) (n : Nat) (hn : x.length < n) :
    loop n { r := x, w := w, importsStarted := s, importsEnded := e }
      = w ++ joinLines (keptLines s e (linesOf x)) := by
  have h := loop_lines (linesOf x) (tailOf x) (linesOf_isLine x) (tailOf_no_newline x)
    n w s e (by rw [join_linesOf]; exact hn)
  rw [join_linesOf] at h
  exact h

/-- More fuel than `len(src) + 1` changes nothing: the loop has left by `break`. -/
theorem loop_fuel_irrelevant (x w : Bytes) (s e : Bool) (n : Nat) (hn : x.length < n) :
    loop n { r := x, w := w, importsStarted := s, importsEnded := e }
      = loop (x.length + 1) { r := x, w := w, importsStarted := s, importsEnded := e } := by
  rw [loop_eq_keptLines x w s e n hn, loop_eq_keptLines x w s e _ (Nat.lt_succ_self _)]

theorem removeImportEmptyLines_eq (x : Bytes) :
    removeImportEmptyLines x = joinLines (keptLines false false (linesOf x)) := by
  simp [removeImportEmptyLines, loop_eq_keptLines]

/-- On a text given as lines followed by an unterminated tail. -/
theorem removeImportEmptyLines_lines (ls : List Bytes) (t : Bytes)
    (hls : ∀ l ∈ ls, isLine l = true) (ht : 10 ∉ t) :
    removeImportEmptyLines (joinLines ls ++ t) = joinLines (keptLines false false ls) := by
  have h := loop_lines ls t hls ht ((joinLines ls ++ t).length + 1) [] false false
    (Nat.lt_succ_self _)
  simpa [removeImportEmptyLines] using h

/-! ## The kept lines, part by part -/

theorem keptLines_before (pre rest : List Bytes) (e : Bool)
    (hpre : ∀ l ∈ pre, isOpener l = false) :
    keptLines false e (pre ++ rest) = pre ++ keptLines false e rest := by
  induction pre with
  | nil => rfl
  | cons l ls ih =>
    have hl : isOpener l = false := hpre l (by simp)
    have hls : ∀ k ∈ ls, isOpener k = false := fun k hk => hpre k (by simp [hk])
    simp [keptLines, hl, ih hls]

theorem keptLines_opener (opener : Bytes) (rest : List Bytes) (e : Bool)
    (hop : isOpener opener = true) :
    keptLines false e (opener :: rest) = opener :: keptLines true e rest := by
  simp [keptLines, hop]

theorem keptLines_inside (mid rest : List Bytes)
    (hmid : ∀ l ∈ mid, isBlank l = false → isCloser l = false) :
    keptLines true false (mid ++ rest)
      = mid.filter (fun l => !isBlank l) ++ keptLines true false rest := by
  induction mid with
  | nil => rfl
  | cons l ls ih =>
    have hls : ∀ k ∈ ls, isBlank k = false → isCloser k = false :=
      fun k hk => hmid k (by simp [hk])
    by_cases hb : isBlank l = true
    · simp [keptLines, hb, ih hls]
    · have hb1 : isBlank l = false := by simpa using hb
      have hc : isCloser l = false := hmid l (by simp) hb1
      simp [keptLines, hb1, hc, ih hls]

theorem keptLines_after (post : List Bytes) : keptLines true true post = post := by
  induction post with
  | nil => rfl
  | cons l ls ih => simp [keptLines, ih]

theorem isCloser_not_blank (l : Bytes) (h : isCloser l = true) : isBlank l = false := by
  cases l with
  | nil => simp [isCloser, hasPrefix, str] at h
  | cons b t =>
    have hb : b = 41 := by
      simp [isCloser, hasPrefix, str] at h
      omega
    subst hb
    unfold isBlank trimSpaceIsEmpty
    simp [isSpace]

theorem keptLines_closer (closer : Bytes) (post : List Bytes)
    (hcl : isCloser closer = true) :
    keptLines true false (closer :: post) = closer :: post := by
  simp [keptLines, isCloser_not_blank closer hcl, hcl, keptLines_after]

theorem keptLines_block (pre mid post : List Bytes) (opener closer : Bytes)
    (hpre : ∀ l ∈ pre, isOpener l = false) (hop : isOpener opener = true)
    (hmid : ∀ l ∈ mid, isBlank l = false → isCloser l = false)
    (hcl : isCloser closer = true) :
    keptLines false false (pre ++ opener :: (mid ++ closer :: post))
      = pre ++ opener :: (mid.filter (fun l => !isBlank l) ++ closer :: post) := by
  rw [keptLines_before pre _ false hpre, keptLines_opener opener _ false hop,
    keptLines_inside mid _ hmid, keptLines_closer closer post hcl]

theorem keptLines_subset (s e : Bool) (ls : List Bytes) :
    ∀ l ∈ keptLines s e ls, l ∈ ls := by
  induction ls generalizing s e with
  | nil => simp [keptLines]
  | cons k ks ih =>
    intro l hl
    simp only [keptLines] at hl
    split_ifs at hl
    all_goals first
      | exact List.mem_cons_of_mem _ (ih _ _ l hl)
      | (rcases List.mem_cons.mp hl with h | h
         · exact h ▸ List.mem_cons_self _ _
         · exact List.mem_cons_of_mem _ (ih _ _ l h))

theorem keptLines_idem (s e : Bool) (ls : List Bytes) :
    keptLines s e (keptLines s e ls) = keptLines s e ls := by
  induction ls generalizing s e with
  | nil => rfl
  | cons k ks ih =>
    cases s <;> cases e <;>
      by_cases hb : isBlank k = true <;>
      by_cases hc : isCloser k = true <;>
      by_cases ho : isOpener k = true <;>
      simp [keptLines, hb, hc, ho, ih]

/-! ## Texts that end with a newline -/

theorem isLine_getLast (l : Bytes) (h : isLine l = true) : l.getLast? = some 10 := by
  induction l with
  | nil => simp [isLine] at h
  | cons b t ih =>
    by_cases hb : b = 10
    · subst hb
      have ht : t = [] := by simpa [isLine] using h
      subst ht
      rfl
    · have ht : isLine t = true := by simpa [isLine, hb] using h
      have hne : t ≠ [] := isLine_ne_nil ht
      obtain ⟨c, u, rfl⟩ := List.exists_cons_of_ne_nil hne
      rw [List.getLast?_cons_cons]
      exact ih ht

theorem joinLines_endsWithNewline (ls : List Bytes) (hls : ∀ l ∈ ls, isLine l = true) :
    endsWithNewline (joinLines ls) = true := by
  induction ls with
  | nil => rfl
  | cons l ks ih =>
    have hl := isLine_getLast l (hls l (by simp))
    have hks := ih (fun k hk => hls k (by simp [hk]))
    simp only [endsWithNewline, Bool.or_eq_true, List.isEmpty_iff, beq_iff_eq] at hks ⊢
    right
    rw [joinLines_cons, List.getLast?_append]
    rcases hks with h | h
    · simp [h, hl]
    · simp [h]

theorem tailOf_eq_nil (x : Bytes) (h : endsWithNewline x = true) : tailOf x = [] := by
  by_contra hne
  obtain ⟨a, ha⟩ := Option.isSome_iff_exists.mp (List.getLast?_isSome.mpr hne)
  have hmem : a ∈ tailOf x := List.mem_of_getLast?_eq_some ha
  have ha10 : a ≠ 10 := fun h10 => tailOf_no_newline x (h10 ▸ hmem)
  have hx : x.getLast? = some a := by
    conv_lhs => rw [← join_linesOf x]
    simp [List.getLast?_append, ha]
  simp only [endsWithNewline, Bool.or_eq_true, List.isEmpty_iff, beq_iff_eq] at h
  rcases h with h | h
  · subst h
    simp [tailOf] at hne
  · rw [hx] at h
    exact ha10 (Option.some.inj h)

theorem linesOf_join_eq (x : Bytes) (h : endsWithNewline x = true) :
    joinLines (linesOf x) = x := by
  have := join_linesOf x
  rwa [tailOf_eq_nil x h, List.append_nil] at this

theorem keptLines_no_opener (ls : List Bytes) (e : Bool)
    (h : ∀ l ∈ ls, isOpener l = false) : keptLines false e ls = ls := by
  have := keptLines_before ls [] e h
  simpa [keptLines] using this

/-! ## The normalizer's contract -/

/-- C1: in a text of newline-terminated lines `pre ++ [opener] ++ mid ++ [closer] ++ post`
whose first line starting with `import (` is `opener` and whose first non-blank line
starting with `)` after it is `closer`, the output keeps, between opener and closer,
exactly the non-blank lines of `mid`, in order and byte for byte, and none of the
lines kept there is blank. -/
theorem import_block_keeps_exactly_nonblank_lines
    (pre mid post : List Bytes) (opener closer : Bytes)
    (hlines : ∀ l ∈ pre ++ [opener] ++ mid ++ [closer] ++ post, isLine l = true)
    (hpre : ∀ l ∈ pre, isOpener l = false)
    (hop : isOpener opener = true)
    (hmid : ∀ l ∈ mid, isBlank l = false → isCloser l = false)
    (hcl : isCloser closer = true) :
    removeImportEmptyLines (joinLines (pre ++ [opener] ++ mid ++ [closer] ++ post))
        = joinLines (pre ++ [opener] ++ mid.filter (fun l => !isBlank l) ++ [closer] ++ post)
      ∧ ∀ l ∈ mid.filter (fun l => !isBlank l), isBlank l = false := by
  constructor
  · have h := removeImportEmptyLines_lines _ [] hlines (by simp)
    rw [List.append_nil] at h
    rw [h]
    have e1 : pre ++ [opener] ++ mid ++ [closer] ++ post
        = pre ++ opener :: (mid ++ closer :: post) := by simp
    have e2 : pre ++ [opener] ++ mid.filter (fun l => !isBlank l) ++ [closer] ++ post
        = pre ++ opener :: (mid.filter (fun l => !isBlank l) ++ closer :: post) := by simp
    rw [e1, e2, keptLines_block pre mid post opener closer hpre hop hmid hcl]
  · intro l hl
    simpa using (List.mem_filter.mp hl).2

/-- C1, at a file whose import block holds two blank lines, one of them made of
spaces and a tab. -/
theorem import_block_keeps_exactly_nonblank_lines_witness :
    removeImportEmptyLines
        (joinLines ([str "package p\n", str "\n"] ++ [str "import (\n"]
          ++ [str "\t\"fmt\"\n", str "\n", str " \t\n", str "\t\"os\"\n"]
          ++ [str ")\n"] ++ [str "\n", str "var x int\n"]))
      = joinLines ([str "package p\n", str "\n"] ++ [str "import (\n"]
          ++ [str "\t\"fmt\"\n", str "\n", str " \t\n", str "\t\"os\"\n"].filter
              (fun l => !isBlank l)
          ++ [str ")\n"] ++ [str "\n", str "var x int\n"])
      ∧ [str "\t\"fmt\"\n", str "\n", str " \t\n", str "\t\"os\"\n"].filter
          (fun l => !isBlank l) = [str "\t\"fmt\"\n", str "\t\"os\"\n"] :=
  ⟨(import_block_keeps_exactly_nonblank_lines
      [str "package p\n", str "\n"]
      [str "\t\"fmt\"\n", str "\n", str " \t\n", str "\t\"os\"\n"]
      [str "\n", str "var x int\n"] (str "import (\n") (str ")\n")
      (by decide) (by decide) (by decide) (by decide) (by decide)).1,
    by decide⟩

/-- C2 as stated fails: `package p` without a final newline has no import block,
and the output is empty, not the input. -/
theorem no_import_block_unterminated_counterexample :
    noImportBlock (str "package p") = true
      ∧ removeImportEmptyLines (str "package p") = []
      ∧ removeImportEmptyLines (str "package p") ≠ str "package p" := by
  decide

/-- C2, amended: a text with no import block comes back without its unterminated
final line, so it comes back unchanged when it is empty or ends with a newline. -/
theorem no_import_block_unchanged (x : Bytes) (hno : noImportBlock x = true) :
    removeImportEmptyLines x ++ tailOf x = x
      ∧ (endsWithNewline x = true → removeImportEmptyLines x = x) := by
  have hls : ∀ l ∈ linesOf x, isOpener l = false := by
    intro l hl
    have := List.all_eq_true.mp hno l (by simp [hl])
    simpa using this
  have hout : removeImportEmptyLines x = joinLines (linesOf x) := by
    rw [removeImportEmptyLines_eq, keptLines_no_opener _ _ hls]
  refine ⟨?_, fun hnl => ?_⟩
  · rw [hout, join_linesOf]
  · rw [hout, linesOf_join_eq x hnl]

/-- C2, amended, at a text without import block that ends with a newline. -/
theorem no_import_block_unchanged_witness :
    noImportBlock (str "package p\n\nvar x int\n") = true
      ∧ removeImportEmptyLines (str "package p\n\nvar x int\n")
          = str "package p\n\nvar x int\n" :=
  ⟨by decide,
    (no_import_block_unchanged (str "package p\n\nvar x int\n") (by decide)).2 (by decide)⟩

/-- C4: `removeImportEmptyLines` is idempotent on every byte string. -/
theorem removeImportEmptyLines_idempotent (x : Bytes) :
    removeImportEmptyLines (removeImportEmptyLines x) = removeImportEmptyLines x := by
  have hk : ∀ l ∈ keptLines false false (linesOf x), isLine l = true :=
    fun l hl => linesOf_isLine x l (keptLines_subset _ _ _ l hl)
  have h := removeImportEmptyLines_lines (keptLines false false (linesOf x)) [] hk (by simp)
  rw [List.append_nil, keptLines_idem] at h
  rw [removeImportEmptyLines_eq x]
  exact h

/-- C10: after a text `s` that is empty or ends with a newline, a final piece `t`
with no newline in it is not copied, wherever it lies and whatever it holds; and
every output is empty or ends with a newline. -/
theorem unterminated_last_line_dropped (s t : Bytes)
    (hs : s = [] ∨ s.getLast? = some 10) (ht : 10 ∉ t) :
    removeImportEmptyLines (s ++ t) = removeImportEmptyLines s
      ∧ ∀ x : Bytes, removeImportEmptyLines x = []
          ∨ (removeImportEmptyLines x).getLast? = some 10 := by
  have hs1 : endsWithNewline s = true := by
    rcases hs with h | h <;> simp [endsWithNewline, h]
  constructor
  · have h := removeImportEmptyLines_lines (linesOf s) t (linesOf_isLine s) ht
    rw [linesOf_join_eq s hs1] at h
    rw [h, removeImportEmptyLines_eq]
  · intro x
    have hk : ∀ l ∈ keptLines false false (linesOf x), isLine l = true :=
      fun l hl => linesOf_isLine x l (keptLines_subset _ _ _ l hl)
    have h := joinLines_endsWithNewline _ hk
    rw [← removeImportEmptyLines_eq] at h
    simpa [endsWithNewline] using h

/-- C10, at final pieces before, inside and after the import block, blank or not. -/
theorem unterminated_last_line_dropped_witness :
    removeImportEmptyLines (str "import (\n\"a\"\n" ++ str "\"b\"")
        = removeImportEmptyLines (str "import (\n\"a\"\n")
      ∧ removeImportEmptyLines (str "package p\n" ++ str "  ") = str "package p\n"
      ∧ removeImportEmptyLines (str "import (\n)\n" ++ str "var x") = str "import (\n)\n"
      ∧ removeImportEmptyLines ([] ++ str "package p") = [] :=
  ⟨(unterminated_last_line_dropped (str "import (\n\"a\"\n") (str "\"b\"")
      (Or.inr (by decide)) (by decide)).1,
    by decide, by decide, by decide⟩

/-! ## The file selector -/

theorem visit_of_returnNil (format : Formatter) (excludedPaths : List Bytes)
    (filterRegexp : Option (Bytes → Bool)) (path : Bytes) (info : Option FileInfo)
    (err : Option GoError) (fs : FS)
    (h : visitAction excludedPaths filterRegexp path info err = .returnNil) :
    visit format excludedPaths filterRegexp path info err fs = .returned fs none := by
  simp [visit, h]

theorem visitAction_excluded (excludedPaths : List Bytes)
    (filterRegexp : Option (Bytes → Bool)) (path : Bytes) (info : Option FileInfo)
    (err : Option GoError)
    (hex : ∃ excludedPath ∈ excludedPaths, hasPrefix path excludedPath = true) :
    visitAction excludedPaths filterRegexp path info err = .returnNil := by
  have h : excludedPaths.any (fun excludedPath => hasPrefix path excludedPath) = true :=
    List.any_eq_true.mpr hex
  simp [visitAction, h]

theorem visitAction_not_excluded (excludedPaths : List Bytes)
    (filterRegexp : Option (Bytes → Bool)) (path : Bytes) (info : FileInfo)
    (err : Option GoError)
    (hnex : ∀ excludedPath ∈ excludedPaths, hasPrefix path excludedPath = false) :
    visitAction excludedPaths filterRegexp path (some info) err =
      if info.isDir then .returnNil
      else if (match filterRegexp with
          | none => false
          | some matchString => !matchString info.name) then .returnNil
      else if hasPrefix info.name (str ".") || !hasSuffix info.name (str ".go") then .returnNil
      else .callProcessFile path info := by
  have h : excludedPaths.any (fun excludedPath => hasPrefix path excludedPath) = false := by
    rw [List.any_eq_false]
    intro e he
    simp [hnex e he]
  simp [visitAction, h]

/-- C5: on an entry whose path starts with a member of the exclusion list the
callback returns nil at once: it does not call `processFile` and leaves the file
system as it is, whatever the base name, the extension, the kind of entry (file
information may even be absent), the filter and the formatter. -/
theorem excluded_entry_is_never_processed (format : Formatter) (excludedPaths : List Bytes)
    (filterRegexp : Option (Bytes → Bool)) (path : Bytes) (info : Option FileInfo)
    (err : Option GoError) (fs : FS)
    (hex : ∃ excludedPath ∈ excludedPaths, hasPrefix path excludedPath = true) :
    visitAction excludedPaths filterRegexp path info err = .returnNil
      ∧ (∀ filename fi, visitAction excludedPaths filterRegexp path info err
            ≠ .callProcessFile filename fi)
      ∧ visit format excludedPaths filterRegexp path info err fs = .returned fs none := by
  have h := visitAction_excluded excludedPaths filterRegexp path info err hex
  refine ⟨h, ?_, visit_of_returnNil format _ _ _ _ _ fs h⟩
  intro filename fi
  rw [h]
  exact Action.noConfusion

/-- C5, at the exclusion list `vendor`: `vendor/x.go` is not processed, `main.go` is. -/
theorem excluded_entry_is_never_processed_witness :
    visitAction [str "vendor"] none (str "vendor/x.go")
        (some { name := str "x.go", isDir := false, mode := 420 }) none = .returnNil
      ∧ visitAction [str "vendor"] none (str "main.go")
          (some { name := str "main.go", isDir := false, mode := 420 }) none
        = .callProcessFile (str "main.go") { name := str "main.go", isDir := false, mode := 420 } :=
  ⟨(excluded_entry_is_never_processed (fun src => .ok src) [str "vendor"] none
      (str "vendor/x.go") (some { name := str "x.go", isDir := false, mode := 420 }) none
      (fun _ => none) ⟨str "vendor", by decide, by decide⟩).1,
    by decide⟩

/-- On an entry with file information whose path starts with no member of the
exclusion list, the callback calls `processFile` (on that path and information)
exactly when the entry is not a directory, the filter is absent or matches the
base name, the base name does not start with `.` and it ends with `.go`; in every
other case it returns nil and leaves the file system as it is. -/
theorem not_excluded_entry_processed_iff (format : Formatter) (excludedPaths : List Bytes)
    (filterRegexp : Option (Bytes → Bool)) (path : Bytes) (info : FileInfo)
    (err : Option GoError) (fs : FS)
    (hnex : ∀ excludedPath ∈ excludedPaths, hasPrefix path excludedPath = false) :
    (visitAction excludedPaths filterRegexp path (some info) err = .callProcessFile path info
        ↔ (info.isDir = false
            ∧ (∀ matchString, filterRegexp = some matchString → matchString info.name = true)
            ∧ hasPrefix info.name (str ".") = false
            ∧ hasSuffix info.name (str ".go") = true))
      ∧ (visitAction excludedPaths filterRegexp path (some info) err
            ≠ .callProcessFile path info →
          visitAction excludedPaths filterRegexp path (some info) err = .returnNil
            ∧ visit format excludedPaths filterRegexp path (some info) err fs
                = .returned fs none) := by
  have h := visitAction_not_excluded excludedPaths filterRegexp path info err hnex
  have hcases : visitAction excludedPaths filterRegexp path (some info) err = .returnNil
      ∨ (visitAction excludedPaths filterRegexp path (some info) err
            = .callProcessFile path info
          ∧ info.isDir = false
          ∧ (∀ matchString, filterRegexp = some matchString → matchString info.name = true)
          ∧ hasPrefix info.name (str ".") = false
          ∧ hasSuffix info.name (str ".go") = true) := by
    rw [h]
    cases hd : info.isDir
    · cases hf : filterRegexp with
      | none =>
        cases hp : hasPrefix info.name (str ".") <;>
          cases hs : hasSuffix info.name (str ".go") <;> simp
      | some m =>
        cases hm : m info.name <;>
          cases hp : hasPrefix info.name (str ".") <;>
          cases hs : hasSuffix info.name (str ".go") <;> simp [hm]
    · simp
  constructor
  · constructor
    · intro hcall
      rcases hcases with hnil | ⟨_, hrest⟩
      · rw [hnil] at hcall
        exact Action.noConfusion hcall
      · exact hrest
    · rintro ⟨hd, hf, hp, hs⟩
      rw [h]
      cases hfr : filterRegexp with
      | none => simp [hd, hp, hs]
      | some m => simp [hd, hp, hs, hf m hfr]
  · intro hne
    rcases hcases with hnil | ⟨hcall, _⟩
    · exact ⟨hnil, visit_of_returnNil format _ _ _ _ _ fs hnil⟩
    · exact absurd hcall hne

/-- With a filter that accepts the names starting with `a`: `pkg/a_test.go` is
processed, since the filter reads the base name `a_test.go` and not the path, while
`pkg/.a.go`, `pkg/a.txt`, `pkg/b.go` and the directory `pkg` are not. -/
theorem not_excluded_entry_processed_iff_witness :
    visitAction [str "vendor"] (some (fun name => hasPrefix name (str "a")))
        (str "pkg/a_test.go") (some { name := str "a_test.go", isDir := false, mode := 420 })
        none
      = .callProcessFile (str "pkg/a_test.go")
          { name := str "a_test.go", isDir := false, mode := 420 }
    ∧ visitAction [str "vendor"] none (str "pkg/.a.go")
        (some { name := str ".a.go", isDir := false, mode := 420 }) none = .returnNil
    ∧ visitAction [str "vendor"] none (str "pkg/a.txt")
        (some { name := str "a.txt", isDir := false, mode := 420 }) none = .returnNil
    ∧ visitAction [str "vendor"] (some (fun name => hasPrefix name (str "a")))
        (str "pkg/b.go") (some { name := str "b.go", isDir := false, mode := 420 }) none
      = .returnNil
    ∧ visitAction [str "vendor"] none (str "pkg")
        (some { name := str "pkg", isDir := true, mode := 493 }) none = .returnNil :=
  ⟨(not_excluded_entry_processed_iff (fun src => .ok src) [str "vendor"]
      (some (fun name => hasPrefix name (str "a"))) (str "pkg/a_test.go")
      { name := str "a_test.go", isDir := false, mode := 420 } none (fun _ => none)
      (by decide)).1.mpr
      ⟨rfl, fun m hm => by cases hm; decide, by decide, by decide⟩,
    by decide, by decide, by decide, by decide⟩

/-- C7 as stated fails: with the exclusion list `vendor`, the callback returns nil
on the directory `vendor`, not `filepath.SkipDir`. -/
theorem excluded_directory_returns_nil_counterexample :
    hasPrefix (str "vendor") (str "vendor") = true
      ∧ visit (fun src => .ok src) [str "vendor"] none (str "vendor")
          (some { name := str "vendor", isDir := true, mode := 493 }) none (fun _ => none)
        = .returned (fun _ => none) none
      ∧ visit (fun src => .ok src) [str "vendor"] none (str "vendor")
          (some { name := str "vendor", isDir := true, mode := 493 }) none (fun _ => none)
        ≠ .returned (fun _ => none) (some .skipDir) := by
  have h : visit (fun src => .ok src) [str "vendor"] none (str "vendor")
      (some { name := str "vendor", isDir := true, mode := 493 }) none (fun _ => none)
      = .returned (fun _ => none) none :=
    visit_of_returnNil _ _ _ _ _ _ _ (by decide)
  refine ⟨by decide, h, ?_⟩
  rw [h]
  intro hc
  cases hc

/-- C7, amended: on every directory, excluded or not, the callback returns nil and
never `filepath.SkipDir`, so the walk descends into it; and below a directory whose
path starts with a member of the exclusion list every path starts with that member
too, so each entry there gets nil in its turn and is not processed. -/
theorem directory_returns_nil (format : Formatter) (excludedPaths : List Bytes)
    (filterRegexp : Option (Bytes → Bool)) (path : Bytes) (info : FileInfo)
    (err : Option GoError) (fs : FS) (hdir : info.isDir = true) :
    visit format excludedPaths filterRegexp path (some info) err fs = .returned fs none
      ∧ visit format excludedPaths filterRegexp path (some info) err fs
          ≠ .returned fs (some .skipDir)
      ∧ ((∃ excludedPath ∈ excludedPaths, hasPrefix path excludedPath = true) →
          ∀ (below : Bytes) (info1 : Option FileInfo) (err1 : Option GoError) (fs1 : FS),
            visit format excludedPaths filterRegexp (path ++ below) info1 err1 fs1
              = .returned fs1 none) := by
  have hnil : visitAction excludedPaths filterRegexp path (some info) err = .returnNil := by
    by_cases hex : excludedPaths.any (fun excludedPath => hasPrefix path excludedPath) = true
    · simp [visitAction, hex]
    · simp [visitAction, hex, hdir]
  have h := visit_of_returnNil format _ _ _ _ _ fs hnil
  refine ⟨h, ?_, ?_⟩
  · rw [h]
    intro hc
    cases hc
  · rintro ⟨e, he, hpre⟩ below info1 err1 fs1
    apply visit_of_returnNil
    apply visitAction_excluded
    refine ⟨e, he, ?_⟩
    simp only [hasPrefix, List.isPrefixOf_iff_prefix] at hpre ⊢
    exact hpre.trans (List.prefix_append _ _)

/-- C7, amended, at the excluded directory `vendor` and the file `vendor/x.go`. -/
theorem directory_returns_nil_witness :
    visit (fun src => .ok src) [str "vendor"] none (str "vendor")
        (some { name := str "vendor", isDir := true, mode := 493 }) none (fun _ => none)
      = .returned (fun _ => none) none
    ∧ visit (fun src => .ok src) [str "vendor"] none (str "vendor" ++ str "/x.go")
        (some { name := str "x.go", isDir := false, mode := 420 }) none (fun _ => none)
      = .returned (fun _ => none) none :=
  ⟨(directory_returns_nil (fun src => .ok src) [str "vendor"] none (str "vendor")
      { name := str "vendor", isDir := true, mode := 493 } none (fun _ => none) rfl).1,
    (directory_returns_nil (fun src => .ok src) [str "vendor"] none (str "vendor")
      { name := str "vendor", isDir := true, mode := 493 } none (fun _ => none) rfl).2.2
      ⟨str "vendor", by decide, by decide⟩ (str "/x.go")
      (some { name := str "x.go", isDir := false, mode := 420 }) none (fun _ => none)⟩

/-! ## The orchestrator -/

/-- C8: for any formatter `format`, `processData` returns the error of the first
pass wrapped as `imports.Process 1` when `format src` fails; else the error of the
second pass wrapped as `imports.Process 2` when `format` fails on
`removeImportEmptyLines` of the first result; else exactly the second result. It
fails exactly when one of the two passes fails. -/
theorem processData_two_passes (format : Formatter) (src : Bytes) :
    (∀ err, format src = .error err →
        processData format src = .error (.wrap err "imports.Process 1"))
      ∧ (∀ res1 err, format src = .ok res1 →
          format (removeImportEmptyLines res1) = .error err →
          processData format src = .error (.wrap err "imports.Process 2"))
      ∧ (∀ res1 res2, format src = .ok res1 →
          format (removeImportEmptyLines res1) = .ok res2 →
          processData format src = .ok res2)
      ∧ ((∃ err, processData format src = .error err) ↔
          ((∃ err, format src = .error err)
            ∨ ∃ res1 err, format src = .ok res1
                ∧ format (removeImportEmptyLines res1) = .error err)) := by
  refine ⟨?_, ?_, ?_, ?_⟩
  · intro err h
    simp [processData, h]
  · intro res1 err h1 h2
    simp [processData, h1, h2]
  · intro res1 res2 h1 h2
    simp [processData, h1, h2]
  · cases h1 : format src with
    | error err => simp [processData, h1]
    | ok res1 =>
      cases h2 : format (removeImportEmptyLines res1) with
      | error err => simp [processData, h1, h2]
      | ok res2 => simp [processData, h1, h2]

theorem walk_append (fn : Entry → FS → Outcome) (before rest : List Entry) (fs fs1 : FS)
    (h : walk fn before fs = .returned fs1 none) :
    walk fn (before ++ rest) fs = walk fn rest fs1 := by
  induction before generalizing fs with
  | nil =>
    simp only [walk, Outcome.returned.injEq, and_true] at h
    subst h
    rfl
  | cons e es ih =>
    simp only [List.cons_append, walk] at h ⊢
    cases hfn : fn e fs with
    | returned fs2 err =>
      cases err with
      | none =>
        rw [hfn] at h
        exact ih fs2 h
      | some err =>
        rw [hfn] at h
        simp at h
    | panicked fs2 =>
      rw [hfn] at h
      cases h

/-- An error that the callback returns is one that `processFile` wrapped: it is
neither `filepath.SkipDir` nor `filepath.SkipAll`. -/
theorem visit_error_is_wrapped (format : Formatter) (excludedPaths : List Bytes)
    (filterRegexp : Option (Bytes → Bool)) (path : Bytes) (info : Option FileInfo)
    (err : Option GoError) (fs fs1 : FS) (e : GoError)
    (h : visit format excludedPaths filterRegexp path info err fs = .returned fs1 (some e)) :
    ∃ cause message, e = .wrap cause message := by
  unfold visit at h
  cases ha : visitAction excludedPaths filterRegexp path info err with
  | returnNil =>
    rw [ha] at h
    simp at h
  | nilDereference =>
    rw [ha] at h
    cases h
  | callProcessFile filename fi =>
    rw [ha] at h
    simp only [Outcome.returned.injEq] at h
    obtain ⟨_, he⟩ := h
    cases hr : readFile fs filename with
    | error c =>
      simp only [processFile, hr] at he
      exact ⟨c, "os.ReadFile", (Option.some.inj he).symm⟩
    | ok rawData =>
      cases hp : processData format rawData with
      | error c =>
        simp only [processFile, hr, hp] at he
        exact ⟨c, "processData", (Option.some.inj he).symm⟩
      | ok res =>
        cases hw : writeFile fs filename res fi.mode with
        | mk fs2 werr =>
          cases werr with
          | none => simp [processFile, hr, hp, hw] at he
          | some c =>
            simp only [processFile, hr, hp, hw] at he
            exact ⟨c, "os.WriteFile", (Option.some.inj he).symm⟩

/-- C9: let the walk have visited the entries `before` without error, leaving the
file system `fs1`, and let the next entry be eligible (the callback calls
`processFile` on it). If reading the file fails, or the read succeeds and
`processData` fails, then `processFile` returns the wrapped error and leaves the
file system as it found it, the callback returns that same error, and `processDir`
returns it with the file system still `fs1`: nothing is written to the failing
file or to any file after it in walk order. -/
theorem first_failure_aborts_walk (format : Formatter) (excludedPaths : List Bytes)
    (filterRegexp : Option (Bytes → Bool)) (before after : List Entry) (e : Entry)
    (info : FileInfo) (fs fs1 : FS) (err : GoError)
    (hbefore : processDir format excludedPaths filterRegexp before fs = .returned fs1 none)
    (helig : visitAction excludedPaths filterRegexp e.path e.info e.err
      = .callProcessFile e.path info)
    (hfail : (∃ cause, readFile fs1 e.path = .error cause ∧ err = .wrap cause "os.ReadFile")
      ∨ (∃ rawData cause, readFile fs1 e.path = .ok rawData
          ∧ processData format rawData = .error cause ∧ err = .wrap cause "processData")) :
    processFile format fs1 e.path info = (fs1, some err)
      ∧ visit format excludedPaths filterRegexp e.path e.info e.err fs1
          = .returned fs1 (some err)
      ∧ processDir format excludedPaths filterRegexp (before ++ e :: after) fs
          = .returned fs1 (some err) := by
  have hpf : processFile format fs1 e.path info = (fs1, some err) := by
    rcases hfail with ⟨cause, hr, rfl⟩ | ⟨rawData, cause, hr, hp, rfl⟩
    · simp [processFile, hr]
    · simp [processFile, hr, hp]
  have hv : visit format excludedPaths filterRegexp e.path e.info e.err fs1
      = .returned fs1 (some err) := by
    simp [visit, helig, hpf]
  refine ⟨hpf, hv, ?_⟩
  unfold processDir at hbefore ⊢
  rw [walk_append _ before (e :: after) fs fs1 hbefore]
  simp only [walk, hv]

/-- C9, on the example directory: `a.go` is rewritten, the formatter rejects `b.go`,
and the walk returns that error with `b.go` and `c.go` as they were. -/
theorem first_failure_aborts_walk_witness :
    processDir exampleFormat [] none
        ([exampleRoot, exampleEntry "a.go"] ++ exampleEntry "b.go" :: [exampleEntry "c.go"])
        exampleFS
      = .returned exampleFSAfterA
          (some (.wrap (.wrap (.formatter 1) "imports.Process 1") "processData"))
    ∧ exampleFSAfterA (str "a.go") ≠ exampleFS (str "a.go")
    ∧ exampleFSAfterA (str "b.go") = exampleFS (str "b.go")
    ∧ exampleFSAfterA (str "c.go") = exampleFS (str "c.go") :=
  ⟨(first_failure_aborts_walk exampleFormat [] none [exampleRoot, exampleEntry "a.go"]
      [exampleEntry "c.go"] (exampleEntry "b.go")
      { name := str "b.go", isDir := false, mode := 420 } exampleFS exampleFSAfterA
      (.wrap (.wrap (.formatter 1) "imports.Process 1") "processData")
      rfl (by decide)
      (Or.inr ⟨str "pakage b\n", .wrap (.formatter 1) "imports.Process 1",
        rfl, rfl, rfl⟩)).2.2,
    by decide, by decide, by decide⟩

/-! ## The model on small inputs -/

theorem str_import_open : str "import (" = [105, 109, 112, 111, 114, 116, 32, 40] := by
  decide

theorem removeImportEmptyLines_sample :
    removeImportEmptyLines (str "a\n\nimport (\n\"x\"\n \t\n\n\"y\"\n)\n\nz")
      = str "a\n\nimport (\n\"x\"\n\"y\"\n)\n\n" := by
  decide

theorem linesOf_tailOf_sample :
    linesOf (str "a\n\nb") = [str "a\n", str "\n"] ∧ tailOf (str "a\n\nb") = str "b" := by
  decide

theorem trimSpaceIsEmpty_sample :
    trimSpaceIsEmpty [0xE2, 0x80, 0x83, 0xC2, 0xA0, 32, 13, 10] = true
      ∧ trimSpaceIsEmpty [0xE2, 0x80, 0x8B, 10] = false
      ∧ trimSpaceIsEmpty [0xFF, 10] = false := by
  decide

/-! ## The exclusion list -/

theorem split_ne_nil (s : Bytes) (sep : Nat) : split s sep ≠ [] := by
  cases s with
  | nil => simp [split]
  | cons b t =>
    by_cases hb : b = sep
    · simp [split, hb]
    · cases ht : split t sep <;> simp [split, hb, ht]

theorem split_no_sep (s : Bytes) (sep : Nat) : ∀ piece ∈ split s sep, sep ∉ piece := by
  induction s with
  | nil => simp [split]
  | cons b t ih =>
    by_cases hb : b = sep
    · intro piece hp
      simp only [split, hb, if_true, List.mem_cons] at hp
      rcases hp with rfl | hp
      · simp
      · exact ih piece hp
    · cases ht : split t sep with
      | nil => exact absurd ht (split_ne_nil t sep)
      | cons q qs =>
        rw [ht] at ih
        intro piece hp
        simp only [split, hb, if_false, ht, List.mem_cons] at hp
        rcases hp with rfl | hp
        · have hq := ih q (by simp)
          simp only [List.mem_cons, not_or]
          exact ⟨fun h => hb h.symm, hq⟩
        · exact ih piece (by simp [hp])

theorem intercalate_split (s : Bytes) (sep : Nat) :
    [sep].intercalate (split s sep) = s := by
  induction s with
  | nil => simp [split, List.intercalate]
  | cons b t ih =>
    cases ht : split t sep with
    | nil => exact absurd ht (split_ne_nil t sep)
    | cons q qs =>
      rw [ht] at ih
      by_cases hb : b = sep
      · subst hb
        simp only [split, if_true, ht]
        simp only [List.intercalate, List.intersperse, List.flatten, List.nil_append,
          List.singleton_append] at ih ⊢
        rw [ih]
      · simp only [split, hb, if_false, ht]
        cases qs with
        | nil =>
          simp only [List.intercalate, List.intersperse, List.flatten, List.append_nil] at ih ⊢
          rw [ih]
        | cons r rs =>
          simp only [List.intercalate, List.intersperse, List.flatten, List.cons_append] at ih ⊢
          rw [ih]

theorem foldl_excludeStep (pieces acc : List Bytes) :
    pieces.foldl excludeStep acc
      = acc ++ (pieces.map trimSpace).filter (fun path => !path.isEmpty) := by
  induction pieces generalizing acc with
  | nil => simp
  | cons q qs ih =>
    rw [List.foldl_cons, ih]
    by_cases hq : trimSpace q = []
    · simp [excludeStep, hq]
    · have hne : (trimSpace q).isEmpty = false := by
        cases h : trimSpace q with
        | nil => exact absurd h hq
        | cons _ _ => rfl
      simp [excludeStep, hq, hne]

/-! ## File modes -/

theorem processFile_success (format : Formatter) (fs fs1 : FS) (filename : Bytes)
    (info : FileInfo) (h : processFile format fs filename info = (fs1, none)) :
    ∃ node res, fs filename = some node ∧ node.isDir = false
      ∧ processData format node.content = .ok res
      ∧ fs1 = fs.update filename { node with content := res } := by
  unfold processFile at h
  cases hnode : fs filename with
  | none => simp [readFile, hnode] at h
  | some node =>
    by_cases hd : node.isDir = true
    · simp [readFile, hnode, hd] at h
    · by_cases hr : node.mode / 256 % 2 = 0
      · simp [readFile, hnode, hd, hr] at h
      · have hread : readFile fs filename = .ok node.content := by
          simp [readFile, hnode, hd, hr]
        rw [hread] at h
        cases hp : processData format node.content with
        | error c => simp [hp] at h
        | ok res =>
          by_cases hw : node.mode / 128 % 2 = 0
          · simp [hp, writeFile, hnode, hd, hw] at h
          · simp only [hp, writeFile, hnode, hd, hw, if_false, Bool.false_eq_true,
              Prod.mk.injEq, and_true] at h
            have hd1 : node.isDir = false := by simpa using hd
            refine ⟨node, res, rfl, hd1, hp, ?_⟩
            rw [hd1]
            exact h.symm

/-- C12: when `processFile` succeeds on a file whose information `info` was read
from the file system before the call (its mode is the mode the file system holds for
the path), the path afterwards holds a regular file with that same mode and the
result of `processData` on the old content, and every other path holds what it held
before. -/
theorem processFile_preserves_mode (format : Formatter) (fs fs1 : FS) (filename : Bytes)
    (info : FileInfo)
    (hinfo : (fs filename).map (fun node => node.mode) = some info.mode)
    (hok : processFile format fs filename info = (fs1, none)) :
    (fs1 filename).map (fun node => node.mode) = some info.mode
      ∧ (fs1 filename).map (fun node => node.isDir) = some false
      ∧ (∃ old, (fs filename).map (fun node => node.content) = some old
          ∧ (fs1 filename).map (fun node => Except.ok node.content)
              = some (processData format old))
      ∧ ∀ other, other ≠ filename → fs1 other = fs other := by
  obtain ⟨node, res, hnode, hd, hp, hfs1⟩ := processFile_success format fs fs1 filename info hok
  subst hfs1
  rw [hnode] at hinfo
  simp only [Option.map_some', Option.some.injEq] at hinfo
  refine ⟨?_, ?_, ⟨node.content, ?_, ?_⟩, ?_⟩
  · simp [FS.update, hinfo]
  · simp [FS.update, hd]
  · simp [hnode]
  · simp [FS.update, hp]
  · intro other hne
    simp [FS.update, hne]

/-- C12, on the executable `run.go`: the blank line of its import block goes, the
mode `0755` stays, and `doc.go` is as before. -/
theorem processFile_preserves_mode_witness :
    processFile exampleFormat exampleExecFS (str "run.go")
        { name := str "run.go", isDir := false, mode := 493 }
      = (exampleExecFS.update (str "run.go")
          { isDir := false, mode := 493, content := str "package main\nimport (\n\"os\"\n)\n" },
        none)
    ∧ ((exampleExecFS.update (str "run.go")
          { isDir := false, mode := 493, content := str "package main\nimport (\n\"os\"\n)\n" })
        (str "run.go")).map (fun node => node.mode) = some 493
    ∧ (exampleExecFS.update (str "run.go")
          { isDir := false, mode := 493, content := str "package main\nimport (\n\"os\"\n)\n" })
        (str "doc.go") = exampleExecFS (str "doc.go") :=
  ⟨rfl,
    (processFile_preserves_mode exampleFormat exampleExecFS _ (str "run.go")
      { name := str "run.go", isDir := false, mode := 493 } (by decide) rfl).1,
    (processFile_preserves_mode exampleFormat exampleExecFS _ (str "run.go")
      { name := str "run.go", isDir := false, mode := 493 } (by decide) rfl).2.2.2
      (str "doc.go") (by decide)⟩

/-! ## The normalizer deletes blank lines and nothing else -/

theorem linesOf_line_append (l rest : Bytes) (h : isLine l = true) :
    linesOf (l ++ rest) = l :: linesOf rest := by
  induction l with
  | nil => simp [isLine] at h
  | cons b t ih =>
    by_cases hb : b = 10
    · subst hb
      have ht : t = [] := by simpa [isLine] using h
      subst ht
      simp [linesOf]
    · have ht : isLine t = true := by simpa [isLine, hb] using h
      simp [linesOf, hb, ih ht]

theorem linesOf_joinLines (ls : List Bytes) (hls : ∀ l ∈ ls, isLine l = true) :
    linesOf (joinLines ls) = ls := by
  induction ls with
  | nil => rfl
  | cons l ks ih =>
    rw [joinLines_cons, linesOf_line_append l _ (hls l (by simp)),
      ih (fun k hk => hls k (by simp [hk]))]

theorem keptLines_deletes_blank (s e : Bool) (ls : List Bytes) :
    BlankLinesDeleted (keptLines s e ls) ls := by
  induction ls generalizing s e with
  | nil => exact .done
  | cons l ks ih =>
    simp only [keptLines]
    split_ifs with h1 h2 h3
    all_goals first
      | exact .keep l (ih _ _)
      | exact .delete l h3 (ih _ _)

theorem BlankLinesDeleted.sublist {kept input : List Bytes}
    (h : BlankLinesDeleted kept input) : kept.Sublist input := by
  induction h with
  | done => exact List.Sublist.slnil
  | keep l _ ih => exact ih.cons₂ l
  | delete l _ _ ih => exact ih.cons l

theorem BlankLinesDeleted.filter_eq {kept input : List Bytes}
    (h : BlankLinesDeleted kept input) :
    kept.filter (fun l => !isBlank l) = input.filter (fun l => !isBlank l) := by
  induction h with
  | done => rfl
  | keep l _ ih => simp [List.filter_cons, ih]
  | delete l hb _ ih => simp [List.filter_cons, hb, ih]

theorem BlankLinesDeleted.length_le {kept input : List Bytes}
    (h : BlankLinesDeleted kept input) :
    (joinLines kept).length ≤ (joinLines input).length := by
  induction h with
  | done => exact Nat.le_refl _
  | keep l _ ih =>
    simp only [joinLines_cons, List.length_append]
    omega
  | delete l _ _ ih =>
    simp only [joinLines_cons, List.length_append]
    omega

/-- C13: on every input, the newline-terminated lines of the output come from those
of the input by deleting whole blank lines and nothing else (kept lines are the same
bytes, terminator included, in the same order), and the output is exactly the
concatenation of these lines; hence the non-blank lines of output and input are the
same list, the lines of the output are a sublist of those of the input, and the
output is not longer than the input. -/
theorem output_deletes_only_blank_lines (x : Bytes) :
    BlankLinesDeleted (linesOf (removeImportEmptyLines x)) (linesOf x)
      ∧ removeImportEmptyLines x = joinLines (linesOf (removeImportEmptyLines x))
      ∧ (linesOf (removeImportEmptyLines x)).filter (fun l => !isBlank l)
          = (linesOf x).filter (fun l => !isBlank l)
      ∧ (linesOf (removeImportEmptyLines x)).Sublist (linesOf x)
      ∧ (removeImportEmptyLines x).length ≤ x.length := by
  have hk : ∀ l ∈ keptLines false false (linesOf x), isLine l = true :=
    fun l hl => linesOf_isLine x l (keptLines_subset _ _ _ l hl)
  have hlines : linesOf (removeImportEmptyLines x) = keptLines false false (linesOf x) := by
    rw [removeImportEmptyLines_eq, linesOf_joinLines _ hk]
  have hdel := keptLines_deletes_blank false false (linesOf x)
  refine ⟨?_, ?_, ?_, ?_, ?_⟩
  · rw [hlines]
    exact hdel
  · rw [hlines, removeImportEmptyLines_eq]
  · rw [hlines]
    exact hdel.filter_eq
  · rw [hlines]
    exact hdel.sublist
  · rw [removeImportEmptyLines_eq]
    have h1 := hdel.length_le
    have h2 : (joinLines (linesOf x)).length ≤ x.length := by
      conv_rhs => rw [← join_linesOf x]
      simp
    omega

/-- C14: in a text of newline-terminated lines `pre ++ opener :: rest` whose first
line starting with `import (` is `opener`, and in which no non-blank line of `rest`
starts with `)`, the output is the text without the blank lines of `rest`: every
blank line after the opener goes, through the end of the text, and every other line
stays. -/
theorem unclosed_block_drops_blank_lines_to_end (pre rest : List Bytes) (opener : Bytes)
    (hlines : ∀ l ∈ pre ++ opener :: rest, isLine l = true)
    (hpre : ∀ l ∈ pre, isOpener l = false)
    (hop : isOpener opener = true)
    (hrest : ∀ l ∈ rest, isBlank l = false → isCloser l = false) :
    removeImportEmptyLines (joinLines (pre ++ opener :: rest))
      = joinLines (pre ++ opener :: rest.filter (fun l => !isBlank l)) := by
  have h := removeImportEmptyLines_lines _ [] hlines (by simp)
  rw [List.append_nil] at h
  have hin := keptLines_inside rest [] hrest
  simp only [List.append_nil, keptLines] at hin
  rw [h, keptLines_before pre _ false hpre, keptLines_opener opener _ false hop, hin]

/-- C14, at a block whose closer is indented: the blank lines after the opener go,
also the one after the indented closer; the blank line before the opener stays. -/
theorem unclosed_block_drops_blank_lines_to_end_witness :
    removeImportEmptyLines
        (joinLines ([str "package p\n", str "\n"] ++ str "import (\n" ::
          [str "\n", str "\t\"fmt\"\n", str "\t)\n", str " \n", str "var x int\n", str "\n"]))
      = str "package p\n\nimport (\n\t\"fmt\"\n\t)\nvar x int\n" :=
  (unclosed_block_drops_blank_lines_to_end [str "package p\n", str "\n"]
    [str "\n", str "\t\"fmt\"\n", str "\t)\n", str " \n", str "var x int\n", str "\n"]
    (str "import (\n") (by decide) (by decide) (by decide) (by decide)).trans (by decide)

/-! ## A lookup error reported by the walk -/

/-- C6 fails on the code: `missing.go` does not exist, so the walk calls the callback
with no file information and the error; the path starts with no member of the
exclusion list `vendor`, and the callback neither calls `processFile` nor returns
nil: it reaches `info.IsDir()` on the nil value and panics. On every entry that
comes with file information the code does what the claim says
(`not_excluded_entry_processed_iff`). -/
theorem not_excluded_lookup_error_entry_panics :
    (∀ excludedPath ∈ [str "vendor"], hasPrefix (str "missing.go") excludedPath = false)
      ∧ visitAction [str "vendor"] none (str "missing.go") none (some .notExist)
          = .nilDereference
      ∧ visitAction [str "vendor"] none (str "missing.go") none (some .notExist)
          ≠ .returnNil
      ∧ ¬ (∃ info, visitAction [str "vendor"] none (str "missing.go") none (some .notExist)
          = .callProcessFile (str "missing.go") info)
      ∧ visit exampleFormat [str "vendor"] none (str "missing.go") none (some .notExist)
          exampleFS = .panicked exampleFS := by
  have h : visitAction [str "vendor"] none (str "missing.go") none (some .notExist)
      = .nilDereference := by decide
  refine ⟨by decide, h, ?_, ?_, rfl⟩
  · rw [h]
    exact Action.noConfusion
  · rintro ⟨info, hinfo⟩
    rw [h] at hinfo
    exact Action.noConfusion hinfo

/-- C15 fails on the code: when the walk reports that the root `missing` does not
exist, it calls the callback with no file information and the error; the path is not
excluded, so the callback reaches `info.IsDir()` on the nil value and panics, and
with it `processDir`. -/
theorem lookup_error_entry_panics :
    visitAction [] none (str "missing") none (some .notExist) = .nilDereference
      ∧ visit exampleFormat [] none (str "missing") none (some .notExist) exampleFS
          = .panicked exampleFS
      ∧ processDir exampleFormat [] none
          [{ path := str "missing", info := none, err := some .notExist }] exampleFS
          = .panicked exampleFS :=
  ⟨by decide, rfl, rfl⟩

/-! ## `strings.TrimSpace` and the blank test agree -/

theorem trimLeftSpace_eq_nil_iff_aux (n : Nat) :
    ∀ s : Bytes, s.length ≤ n → (trimLeftSpace s = [] ↔ trimSpaceIsEmpty s = true) := by
  induction n with
  | zero =>
    intro s hs
    have : s = [] := List.length_eq_zero.mp (Nat.le_zero.mp hs)
    subst this
    simp [trimLeftSpace, trimSpaceIsEmpty]
  | succ n ih =>
    intro s hs
    cases s with
    | nil => simp [trimLeftSpace, trimSpaceIsEmpty]
    | cons b0 rest =>
      unfold trimLeftSpace trimSpaceIsEmpty
      have h0 := ih rest (by simp at hs; omega)
      by_cases hb : b0 < 0x80
      · by_cases hsp : isSpace b0 = true
        · simp [hb, hsp, h0]
        · simp [hb, hsp]
      · cases rest with
        | nil => simp [hb]
        | cons b1 rest1 =>
          have h1 := ih rest1 (by simp at hs; omega)
          by_cases h2 : valid2 b0 b1 = true
          · by_cases hsp : isSpace (rune2 b0 b1) = true
            · simp [hb, h2, hsp, h1]
            · simp [hb, h2, hsp]
          · cases rest1 with
            | nil => simp [hb, h2]
            | cons b2 rest2 =>
              have h2' := ih rest2 (by simp at hs; omega)
              by_cases h3 : valid3 b0 b1 b2 = true
              · by_cases hsp : isSpace (rune3 b0 b1 b2) = true
                · simp [hb, h2, h3, hsp, h2']
                · simp [hb, h2, h3, hsp]
              · simp [hb, h2, h3]

theorem trimLeftSpace_eq_nil_iff (s : Bytes) :
    trimLeftSpace s = [] ↔ trimSpaceIsEmpty s = true :=
  trimLeftSpace_eq_nil_iff_aux s.length s (Nat.le_refl _)

/-- What `trimLeftSpace` leaves is the text itself or what it leaves of a shorter
end of the text. -/
theorem trimLeftSpace_fixed_aux (n : Nat) :
    ∀ s : Bytes, s.length ≤ n → trimLeftSpace (trimLeftSpace s) = trimLeftSpace s := by
  induction n with
  | zero =>
    intro s hs
    have : s = [] := List.length_eq_zero.mp (Nat.le_zero.mp hs)
    subst this
    simp [trimLeftSpace]
  | succ n ih =>
    intro s hs
    have key : trimLeftSpace s = s ∨ ∃ t : Bytes, t.length ≤ n ∧ trimLeftSpace s = trimLeftSpace t := by
      cases s with
      | nil => left; simp [trimLeftSpace]
      | cons b0 rest =>
        rw [trimLeftSpace.eq_def]
        by_cases hb : b0 < 0x80
        · by_cases hsp : isSpace b0 = true
          · right
            exact ⟨rest, by simp at hs; omega, by simp [hb, hsp]⟩
          · left; simp [hb, hsp]
        · cases rest with
          | nil => left; simp [hb]
          | cons b1 rest1 =>
            by_cases h2 : valid2 b0 b1 = true
            · by_cases hsp : isSpace (rune2 b0 b1) = true
              · right
                exact ⟨rest1, by simp at hs; omega, by simp [hb, h2, hsp]⟩
              · left; simp [hb, h2, hsp]
            · cases rest1 with
              | nil => left; simp [hb, h2]
              | cons b2 rest2 =>
                by_cases h3 : (valid3 b0 b1 b2 && isSpace (rune3 b0 b1 b2)) = true
                · right
                  exact ⟨rest2, by simp at hs; omega, by simp [hb, h2, h3]⟩
                · left; simp [hb, h2, h3]
    rcases key with h | ⟨t, ht, h⟩
    · rw [h, h]
    · rw [h, ih t ht]

theorem trimSpaceIsEmpty_append_aux (n : Nat) :
    ∀ u v : Bytes, u.length ≤ n → trimSpaceIsEmpty u = true →
      trimSpaceIsEmpty (u ++ v) = trimSpaceIsEmpty v := by
  induction n with
  | zero =>
    intro u v hu _
    have : u = [] := List.length_eq_zero.mp (Nat.le_zero.mp hu)
    subst this
    rfl
  | succ n ih =>
    intro u v hu h
    cases u with
    | nil => rfl
    | cons b0 rest =>
      rw [List.cons_append]
      unfold trimSpaceIsEmpty at h
      conv_lhs => unfold trimSpaceIsEmpty
      by_cases hb : b0 < 0x80
      · simp only [hb, if_true, Bool.and_eq_true] at h
        simp [hb, h.1, ih rest v (by simp at hu; omega) h.2]
      · cases rest with
        | nil => simp [hb] at h
        | cons b1 rest1 =>
          by_cases h2 : valid2 b0 b1 = true
          · simp only [hb, h2, if_true, if_false, Bool.and_eq_true] at h
            simp [hb, h2, h.1, ih rest1 v (by simp at hu; omega) h.2]
          · cases rest1 with
            | nil => simp [hb, h2] at h
            | cons b2 rest2 =>
              by_cases h3 : valid3 b0 b1 b2 = true
              · simp only [hb, h2, h3, if_true, if_false, Bool.and_eq_true,
                  Bool.false_eq_true] at h
                simp [hb, h2, h3, h.1, ih rest2 v (by simp at hu; omega) h.2]
              · simp [hb, h2, h3] at h

theorem trimSpaceIsEmpty_append (u v : Bytes) (h : trimSpaceIsEmpty u = true) :
    trimSpaceIsEmpty (u ++ v) = trimSpaceIsEmpty v :=
  trimSpaceIsEmpty_append_aux u.length u v (Nat.le_refl _) h

theorem valid2_lead (b0 b1 : Nat) (h : valid2 b0 b1 = true) : ¬ b0 < 0x80 := by
  simp only [valid2, isCont, Bool.and_eq_true, decide_eq_true_eq] at h
  omega

theorem valid3_lead (b0 b1 b2 : Nat) (h : valid3 b0 b1 b2 = true) :
    ¬ b0 < 0x80 ∧ valid2 b0 b1 = false := by
  have hge : 0xE0 ≤ b0 := by
    simp only [valid3, isCont, Bool.and_eq_true, Bool.or_eq_true, decide_eq_true_eq,
      beq_iff_eq] at h
    omega
  refine ⟨by omega, ?_⟩
  simp only [valid2, Bool.and_eq_false_iff, decide_eq_false_iff_not]
  left
  right
  omega

theorem trimRightSpaceRev_eq_nil_aux (n : Nat) :
    ∀ q : Bytes, q.length ≤ n → trimRightSpaceRev q = [] →
      trimSpaceIsEmpty q.reverse = true := by
  induction n with
  | zero =>
    intro q hq _
    have : q = [] := List.length_eq_zero.mp (Nat.le_zero.mp hq)
    subst this
    rfl
  | succ n ih =>
    intro q hq h
    cases q with
    | nil => rfl
    | cons c rest =>
      rw [trimRightSpaceRev.eq_def] at h
      by_cases hc : c < 0x80
      · by_cases hsp : isSpace c = true
        · simp only [hc, hsp, if_true] at h
          have h1 := ih rest (by simp at hq; omega) h
          rw [List.reverse_cons, trimSpaceIsEmpty_append _ _ h1]
          unfold trimSpaceIsEmpty
          simp [hc, hsp, trimSpaceIsEmpty]
        · simp [hc, hsp] at h
      · cases rest with
        | nil => simp [hc] at h
        | cons b rest1 =>
          by_cases h2 : valid2 b c = true
          · by_cases hsp : isSpace (rune2 b c) = true
            · simp only [hc, h2, hsp, if_true, if_false] at h
              have h1 := ih rest1 (by simp at hq; omega) h
              have hb := valid2_lead b c h2
              rw [List.reverse_cons, List.reverse_cons, List.append_assoc,
                trimSpaceIsEmpty_append _ _ h1]
              unfold trimSpaceIsEmpty
              simp [hb, h2, hsp, trimSpaceIsEmpty]
            · simp [hc, h2, hsp] at h
          · cases rest1 with
            | nil => simp [hc, h2] at h
            | cons a rest2 =>
              by_cases h3 : (valid3 a b c && isSpace (rune3 a b c)) = true
              · simp only [hc, h2, h3, if_true, if_false, Bool.false_eq_true] at h
                have h1 := ih rest2 (by simp at hq; omega) h
                simp only [Bool.and_eq_true] at h3
                obtain ⟨ha, ha2⟩ := valid3_lead a b c h3.1
                rw [List.reverse_cons, List.reverse_cons, List.reverse_cons, List.append_assoc,
                  List.append_assoc, trimSpaceIsEmpty_append _ _ h1]
                unfold trimSpaceIsEmpty
                simp [ha, ha2, h3.1, h3.2, trimSpaceIsEmpty]
              · simp [hc, h2, h3] at h

/-- The two readings of `strings.TrimSpace(s) == ""` agree: trimming `s` leaves
nothing exactly when every rune of `s` is a space. -/
theorem trimSpace_eq_nil_iff (s : Bytes) :
    trimSpace s = [] ↔ trimSpaceIsEmpty s = true := by
  constructor
  · intro h
    have hrev : trimRightSpaceRev (trimLeftSpace s).reverse = [] := by
      simpa [trimSpace] using h
    have h1 := trimRightSpaceRev_eq_nil_aux _ _ (Nat.le_refl _) hrev
    rw [List.reverse_reverse] at h1
    have h2 := (trimLeftSpace_eq_nil_iff (trimLeftSpace s)).mpr h1
    rw [trimLeftSpace_fixed_aux _ s (Nat.le_refl _)] at h2
    exact (trimLeftSpace_eq_nil_iff s).mp h2
  · intro h
    have h1 := (trimLeftSpace_eq_nil_iff s).mpr h
    simp [trimSpace, h1, trimRightSpaceRev]

/-! ## What `strings.TrimSpace` removes and what it leaves -/

/-- One step of `trimLeftSpace`: it stops, or it drops the encoding of one space. -/
theorem trimLeftSpace_step (s : Bytes) :
    trimLeftSpace s = s
      ∨ ∃ e t : Bytes, s = e ++ t ∧ e ≠ [] ∧ trimSpaceIsEmpty e = true
          ∧ trimLeftSpace s = trimLeftSpace t := by
  cases s with
  | nil => left; simp [trimLeftSpace]
  | cons b0 rest =>
    rw [trimLeftSpace.eq_def]
    by_cases hb : b0 < 0x80
    · by_cases hsp : isSpace b0 = true
      · right
        refine ⟨[b0], rest, rfl, by simp, ?_, by simp [hb, hsp]⟩
        unfold trimSpaceIsEmpty
        simp [hb, hsp, trimSpaceIsEmpty]
      · left; simp [hb, hsp]
    · cases rest with
      | nil => left; simp [hb]
      | cons b1 rest1 =>
        by_cases h2 : valid2 b0 b1 = true
        · by_cases hsp : isSpace (rune2 b0 b1) = true
          · right
            refine ⟨[b0, b1], rest1, rfl, by simp, ?_, by simp [hb, h2, hsp]⟩
            unfold trimSpaceIsEmpty
            simp [hb, h2, hsp, trimSpaceIsEmpty]
          · left; simp [hb, h2, hsp]
        · cases rest1 with
          | nil => left; simp [hb, h2]
          | cons b2 rest2 =>
            by_cases h3 : (valid3 b0 b1 b2 && isSpace (rune3 b0 b1 b2)) = true
            · right
              refine ⟨[b0, b1, b2], rest2, rfl, by simp, ?_, by simp [hb, h2, h3]⟩
              simp only [Bool.and_eq_true] at h3
              unfold trimSpaceIsEmpty
              simp [hb, h2, h3.1, h3.2, trimSpaceIsEmpty]
            · left; simp [hb, h2, h3]

/-- One step of `trimRightSpaceRev`: it stops, or it drops the encoding of one
space, which stands reversed at the front. -/
theorem trimRightSpaceRev_step (q : Bytes) :
    trimRightSpaceRev q = q
      ∨ ∃ e t : Bytes, q = e.reverse ++ t ∧ e ≠ [] ∧ trimSpaceIsEmpty e = true
          ∧ trimRightSpaceRev q = trimRightSpaceRev t := by
  cases q with
  | nil => left; simp [trimRightSpaceRev]
  | cons c rest =>
    rw [trimRightSpaceRev.eq_def]
    by_cases hc : c < 0x80
    · by_cases hsp : isSpace c = true
      · right
        refine ⟨[c], rest, rfl, by simp, ?_, by simp [hc, hsp]⟩
        unfold trimSpaceIsEmpty
        simp [hc, hsp, trimSpaceIsEmpty]
      · left; simp [hc, hsp]
    · cases rest with
      | nil => left; simp [hc]
      | cons b rest1 =>
        by_cases h2 : valid2 b c = true
        · by_cases hsp : isSpace (rune2 b c) = true
          · right
            refine ⟨[b, c], rest1, rfl, by simp, ?_, by simp [hc, h2, hsp]⟩
            have hb := valid2_lead b c h2
            unfold trimSpaceIsEmpty
            simp [hb, h2, hsp, trimSpaceIsEmpty]
          · left; simp [hc, h2, hsp]
        · cases rest1 with
          | nil => left; simp [hc, h2]
          | cons a rest2 =>
            by_cases h3 : (valid3 a b c && isSpace (rune3 a b c)) = true
            · right
              refine ⟨[a, b, c], rest2, rfl, by simp, ?_, by simp [hc, h2, h3]⟩
              simp only [Bool.and_eq_true] at h3
              obtain ⟨ha, ha2⟩ := valid3_lead a b c h3.1
              unfold trimSpaceIsEmpty
              simp [ha, ha2, h3.1, h3.2, trimSpaceIsEmpty]
            · left; simp [hc, h2, h3]

theorem trimLeftSpace_decomp_aux (n : Nat) :
    ∀ s : Bytes, s.length ≤ n →
      ∃ lead : Bytes, s = lead ++ trimLeftSpace s ∧ trimSpaceIsEmpty lead = true := by
  induction n with
  | zero =>
    intro s hs
    have : s = [] := List.length_eq_zero.mp (Nat.le_zero.mp hs)
    subst this
    exact ⟨[], by simp [trimLeftSpace], rfl⟩
  | succ n ih =>
    intro s hs
    rcases trimLeftSpace_step s with h | ⟨e, t, hst, hne, hblank, h⟩
    · exact ⟨[], by simp [h], rfl⟩
    · have hlen : 0 < e.length := List.length_pos.mpr hne
      have ht : t.length ≤ n := by
        have := congrArg List.length hst
        simp only [List.length_append] at this
        omega
      obtain ⟨lead, hl, hlb⟩ := ih t ht
      refine ⟨e ++ lead, ?_, ?_⟩
      · rw [h, List.append_assoc, ← hl]
        exact hst
      · rw [trimSpaceIsEmpty_append e lead hblank]
        exact hlb

theorem trimRightSpaceRev_decomp_aux (n : Nat) :
    ∀ q : Bytes, q.length ≤ n →
      ∃ trail : Bytes, q = trail.reverse ++ trimRightSpaceRev q
        ∧ trimSpaceIsEmpty trail = true := by
  induction n with
  | zero =>
    intro q hq
    have : q = [] := List.length_eq_zero.mp (Nat.le_zero.mp hq)
    subst this
    exact ⟨[], by simp [trimRightSpaceRev], rfl⟩
  | succ n ih =>
    intro q hq
    rcases trimRightSpaceRev_step q with h | ⟨e, t, hqt, hne, hblank, h⟩
    · exact ⟨[], by simp [h], rfl⟩
    · have hlen : 0 < e.length := List.length_pos.mpr hne
      have ht : t.length ≤ n := by
        have := congrArg List.length hqt
        simp only [List.length_append, List.length_reverse] at this
        omega
      obtain ⟨trail, hl, hlb⟩ := ih t ht
      refine ⟨trail ++ e, ?_, ?_⟩
      · rw [h, List.reverse_append, List.append_assoc, ← hl]
        exact hqt
      · rw [trimSpaceIsEmpty_append trail e hlb]
        exact hblank

theorem trimRightSpaceRev_fixed_aux (n : Nat) :
    ∀ q : Bytes, q.length ≤ n →
      trimRightSpaceRev (trimRightSpaceRev q) = trimRightSpaceRev q := by
  induction n with
  | zero =>
    intro q hq
    have : q = [] := List.length_eq_zero.mp (Nat.le_zero.mp hq)
    subst this
    simp [trimRightSpaceRev]
  | succ n ih =>
    intro q hq
    rcases trimRightSpaceRev_step q with h | ⟨e, t, hqt, hne, _, h⟩
    · rw [h, h]
    · have hlen : 0 < e.length := List.length_pos.mpr hne
      have ht : t.length ≤ n := by
        have := congrArg List.length hqt
        simp only [List.length_append, List.length_reverse] at this
        omega
      rw [h, ih t ht]

theorem trimLeftSpace_blank_append_aux (n : Nat) :
    ∀ u v : Bytes, u.length ≤ n → trimSpaceIsEmpty u = true →
      trimLeftSpace (u ++ v) = trimLeftSpace v := by
  induction n with
  | zero =>
    intro u v hu _
    have : u = [] := List.length_eq_zero.mp (Nat.le_zero.mp hu)
    subst this
    rfl
  | succ n ih =>
    intro u v hu h
    cases u with
    | nil => rfl
    | cons b0 rest =>
      rw [List.cons_append]
      unfold trimSpaceIsEmpty at h
      conv_lhs => rw [trimLeftSpace.eq_def]
      by_cases hb : b0 < 0x80
      · simp only [hb, if_true, Bool.and_eq_true] at h
        simp [hb, h.1, ih rest v (by simp at hu; omega) h.2]
      · cases rest with
        | nil => simp [hb] at h
        | cons b1 rest1 =>
          by_cases h2 : valid2 b0 b1 = true
          · simp only [hb, h2, if_true, if_false, Bool.and_eq_true] at h
            simp [hb, h2, h.1, ih rest1 v (by simp at hu; omega) h.2]
          · cases rest1 with
            | nil => simp [hb, h2] at h
            | cons b2 rest2 =>
              by_cases h3 : valid3 b0 b1 b2 = true
              · simp only [hb, h2, h3, if_true, if_false, Bool.and_eq_true,
                  Bool.false_eq_true] at h
                simp [hb, h2, h3, h.1, ih rest2 v (by simp at hu; omega) h.2]
              · simp [hb, h2, h3] at h

theorem valid2_cont (b0 b1 : Nat) (h : valid2 b0 b1 = true) : ¬ b1 < 0x80 := by
  simp only [valid2, isCont, Bool.and_eq_true, decide_eq_true_eq] at h
  omega

theorem valid3_cont (b0 b1 b2 : Nat) (h : valid3 b0 b1 b2 = true) :
    ¬ b2 < 0x80 ∧ valid2 b1 b2 = false := by
  have hb : b1 ≤ 0xBF ∧ 0x80 ≤ b2 := by
    simp only [valid3, isCont, Bool.and_eq_true, Bool.or_eq_true, decide_eq_true_eq,
      beq_iff_eq] at h
    omega
  refine ⟨by omega, ?_⟩
  simp only [valid2, Bool.and_eq_false_iff, decide_eq_false_iff_not]
  left
  left
  omega

theorem trimRightSpaceRev_blank_append_aux (n : Nat) :
    ∀ t q : Bytes, t.length ≤ n → trimSpaceIsEmpty t = true →
      trimRightSpaceRev (t.reverse ++ q) = trimRightSpaceRev q := by
  induction n with
  | zero =>
    intro t q ht _
    have : t = [] := List.length_eq_zero.mp (Nat.le_zero.mp ht)
    subst this
    rfl
  | succ n ih =>
    intro t q ht h
    cases t with
    | nil => rfl
    | cons b0 rest =>
      unfold trimSpaceIsEmpty at h
      by_cases hb : b0 < 0x80
      · simp only [hb, if_true, Bool.and_eq_true] at h
        have e1 : (b0 :: rest).reverse ++ q = rest.reverse ++ (b0 :: q) := by simp
        rw [e1, ih rest (b0 :: q) (by simp at ht; omega) h.2, trimRightSpaceRev.eq_def]
        simp [hb, h.1]
      · cases rest with
        | nil => simp [hb] at h
        | cons b1 rest1 =>
          by_cases h2 : valid2 b0 b1 = true
          · simp only [hb, h2, if_true, if_false, Bool.and_eq_true] at h
            have hc := valid2_cont b0 b1 h2
            have e1 : (b0 :: b1 :: rest1).reverse ++ q = rest1.reverse ++ (b1 :: b0 :: q) := by
              simp
            rw [e1, ih rest1 (b1 :: b0 :: q) (by simp at ht; omega) h.2,
              trimRightSpaceRev.eq_def]
            simp [hc, h2, h.1]
          · cases rest1 with
            | nil => simp [hb, h2] at h
            | cons b2 rest2 =>
              by_cases h3 : valid3 b0 b1 b2 = true
              · simp only [hb, h2, h3, if_true, if_false, Bool.and_eq_true,
                  Bool.false_eq_true] at h
                obtain ⟨hc, hn2⟩ := valid3_cont b0 b1 b2 h3
                have e1 : (b0 :: b1 :: b2 :: rest2).reverse ++ q
                    = rest2.reverse ++ (b2 :: b1 :: b0 :: q) := by simp
                rw [e1, ih rest2 (b2 :: b1 :: b0 :: q) (by simp at ht; omega) h.2,
                  trimRightSpaceRev.eq_def]
                simp [hc, hn2, h3, h.1]
              · simp [hb, h2, h3] at h

/-- `strings.TrimSpace` takes spaces away at both ends and nothing else. -/
theorem trimSpace_decomp (s : Bytes) :
    ∃ lead trail : Bytes, s = lead ++ trimSpace s ++ trail
      ∧ trimSpaceIsEmpty lead = true ∧ trimSpaceIsEmpty trail = true := by
  obtain ⟨lead, hl, hlb⟩ := trimLeftSpace_decomp_aux _ s (Nat.le_refl _)
  obtain ⟨trail, ht, htb⟩ :=
    trimRightSpaceRev_decomp_aux _ (trimLeftSpace s).reverse (Nat.le_refl _)
  refine ⟨lead, trail, ?_, hlb, htb⟩
  have h2 : trimLeftSpace s = trimSpace s ++ trail := by
    have := congrArg List.reverse ht
    simpa [trimSpace] using this
  rw [List.append_assoc, ← h2]
  exact hl

/-- What `strings.TrimSpace` leaves does not start with a space. -/
theorem trimSpace_no_blank_prefix (s pre : Bytes) (hpre : pre <+: trimSpace s)
    (hblank : trimSpaceIsEmpty pre = true) : pre = [] := by
  obtain ⟨trail, ht, _⟩ :=
    trimRightSpaceRev_decomp_aux _ (trimLeftSpace s).reverse (Nat.le_refl _)
  have h2 : trimLeftSpace s = trimSpace s ++ trail := by
    have := congrArg List.reverse ht
    simpa [trimSpace] using this
  obtain ⟨x, hx⟩ := hpre
  have hl : trimLeftSpace s = pre ++ (x ++ trail) := by
    rw [h2, ← hx, List.append_assoc]
  have hfix := trimLeftSpace_fixed_aux _ s (Nat.le_refl _)
  rw [hl, trimLeftSpace_blank_append_aux _ pre (x ++ trail) (Nat.le_refl _) hblank] at hfix
  obtain ⟨lead, hd, _⟩ := trimLeftSpace_decomp_aux _ (x ++ trail) (Nat.le_refl _)
  have hlen := congrArg List.length hd
  rw [hfix] at hlen
  simp only [List.length_append] at hlen
  exact List.length_eq_zero.mp (by omega)

/-- What `strings.TrimSpace` leaves does not end with a space. -/
theorem trimSpace_no_blank_suffix (s suf : Bytes) (hsuf : suf <:+ trimSpace s)
    (hblank : trimSpaceIsEmpty suf = true) : suf = [] := by
  obtain ⟨y, hy⟩ := hsuf
  have hrev : trimRightSpaceRev (trimLeftSpace s).reverse = suf.reverse ++ y.reverse := by
    have := congrArg List.reverse hy
    simpa [trimSpace] using this.symm
  have hfix := trimRightSpaceRev_fixed_aux _ (trimLeftSpace s).reverse (Nat.le_refl _)
  rw [hrev, trimRightSpaceRev_blank_append_aux _ suf y.reverse (Nat.le_refl _) hblank] at hfix
  obtain ⟨trail, hd, _⟩ := trimRightSpaceRev_decomp_aux _ y.reverse (Nat.le_refl _)
  have hlen := congrArg List.length hd
  rw [hfix] at hlen
  simp only [List.length_append, List.length_reverse] at hlen
  exact List.length_eq_zero.mp (by omega)

/-- C11: for every value of the flag `-exclude`, the list that `main` builds is the
list of the pieces of the value between its commas (joined again by commas they give
the value back, and no piece holds a comma), each piece through `strings.TrimSpace`,
without the pieces that are empty after trimming, in the order of the value. What
`strings.TrimSpace` makes of a piece is the piece without a run of spaces at its
front and a run of spaces at its end, and it neither starts nor ends with a space.
The empty string is never in the list, and the default value `""` gives the empty
list. -/
theorem exclusion_list_is_trimmed_nonempty_pieces (excludedPaths : Bytes) :
    filteredExcludedPaths excludedPaths
        = ((split excludedPaths 44).map trimSpace).filter (fun path => !path.isEmpty)
      ∧ [44].intercalate (split excludedPaths 44) = excludedPaths
      ∧ (∀ piece ∈ split excludedPaths 44, 44 ∉ piece)
      ∧ (∀ piece ∈ split excludedPaths 44,
          (∃ lead trail : Bytes, piece = lead ++ trimSpace piece ++ trail
            ∧ trimSpaceIsEmpty lead = true ∧ trimSpaceIsEmpty trail = true)
          ∧ (∀ pre : Bytes, pre <+: trimSpace piece → trimSpaceIsEmpty pre = true → pre = [])
          ∧ (∀ suf : Bytes, suf <:+ trimSpace piece → trimSpaceIsEmpty suf = true → suf = []))
      ∧ [] ∉ filteredExcludedPaths excludedPaths
      ∧ filteredExcludedPaths (str "") = [] := by
  have h : filteredExcludedPaths excludedPaths
      = ((split excludedPaths 44).map trimSpace).filter (fun path => !path.isEmpty) := by
    simp [filteredExcludedPaths, foldl_excludeStep]
  refine ⟨h, intercalate_split _ _, split_no_sep _ _, ?_, ?_, by decide⟩
  · intro piece _
    exact ⟨trimSpace_decomp piece, fun pre => trimSpace_no_blank_prefix piece pre,
      fun suf => trimSpace_no_blank_suffix piece suf⟩
  · rw [h]
    intro hmem
    have := (List.mem_filter.mp hmem).2
    simp at this

/-- C11, at a flag with spaces, a tab and a newline around its pieces, two empty
pieces and a space inside a piece; and at a flag whose piece stands between a
no-break space and an em space and is followed by a comma. -/
theorem exclusion_list_is_trimmed_nonempty_pieces_witness :
    filteredExcludedPaths (str " vendor ,,\tgen/pb , \n,a b")
        = [str "vendor", str "gen/pb", str "a b"]
      ∧ filteredExcludedPaths ([0xC2, 0xA0] ++ str "vendor" ++ [0xE2, 0x80, 0x83] ++ str ",")
        = [str "vendor"] :=
  ⟨(exclusion_list_is_trimmed_nonempty_pieces (str " vendor ,,\tgen/pb , \n,a b")).1.trans
      (by decide),
    (exclusion_list_is_trimmed_nonempty_pieces
      ([0xC2, 0xA0] ++ str "vendor" ++ [0xE2, 0x80, 0x83] ++ str ",")).1.trans (by decide)⟩

theorem filteredExcludedPaths_sample :
    filteredExcludedPaths (str " vendor ,,\tgen/pb , \n,a b") = [str "vendor", str "gen/pb", str "a b"]
      ∧ split (str "a,,b,") 44 = [str "a", [], str "b", []]
      ∧ trimSpace ([0xC2, 0xA0] ++ str " x y " ++ [0xE2, 0x80, 0x83, 13, 10]) = str "x y"
      ∧ trimSpace ([0xE2, 0x80] ++ str "x" ++ [0x80, 0x83]) = [0xE2, 0x80] ++ str "x" ++ [0x80, 0x83] := by
  decide

end SmartImports
